import Mathlib

/-!
Join algorithms of `go-algorithms/main.go`

A shallow embedding of the two join routines `HashJoin` and `SortMergeJoin`
and of the data they work on, followed by the ingestion routine `parseLine`,
the benchmark step `measureTimeSmallDataSet` and the result writer
`WriteToDisc`.

The joins are given twice.

* On field sequences (`HashJoin`, `SortMergeJoin`, `mergeLoop`): a row is the
  list of its fields and `concatRow` gives the row that an `append` returns as
  it reads at that moment.  This says which keys are read and compared, which
  pairs of rows are appended and in which order, when the call panics and that
  it ends.
* With the storage of the rows (`Storage.HashJoin`, `Storage.SortMergeJoin`,
  `Storage.mergePhase`): a row is a slice of a backing array in a memory, and
  `append(l.Values, r.Values...)` writes into the spare cells of `l` when it
  has enough of them.  This says what the returned rows read once the call is
  over.

The two agree when no row of the first table has spare capacity
(`hashJoin_refines`, `sortMergeJoin_refines`); with spare capacity a later
`append` overwrites the fields of rows returned earlier.

Modelling conventions

* A Go `Relation` (one row, `Values []*uint32`) is a structure holding the list
  of the pointed-to field values.  The pointed-to integers are never written
  after creation, so a pointer is represented by the value it points to; rows
  and fields are non-nil, as `parseLine` and the two joins produce them.  No
  arithmetic is ever done on a field (only `<`, `>`, `==`), so the values are
  natural numbers.
* A table (`[]*Relation`) is a list of rows.
* A Go `string` that is cut or split (a line, a predicate name) is a list of
  bytes; text that is only built and returned is a `String`.  The clock and the
  file system are outside the embedding: the elapsed-time text is a parameter,
  and of `WriteToDisc` the embedding gives the text that is appended.
* A key index is a Go `int`, hence an `Int` here; indexing with a negative
  index or one past the end is the run-time panic `index out of range`.
* A call either ends in a run-time panic (`Except.error`) or returns normally
  (`Except.ok`).  The Go `error` value that is returned next to the result is an
  `Option String`, `none` being `nil`.
* Loops over cursors carry a step budget; running out of it is the fault
  `fuelExhausted`, which the theorems show never to happen.
* `sort.Slice` belongs to the Go standard library.  `SortMergeJoin` takes the
  sorting routine as a parameter, and the theorems hold for every routine with
  the property `SortsByKey`; `insertionSortSlice` is the routine the library
  runs on short slices (every concrete table below has at most four rows).
-/

namespace JoinAlgorithms

/-- One row: `type Relation struct { Values []*uint32 }`. -/
structure Relation where
  Values : List Nat
  deriving DecidableEq

/-- The ways in which an evaluation can stop without returning. -/
inductive Fault where
  /-- Go run-time panic: index out of range. -/
  | indexOutOfRange
  /-- The step budget of a loop of the embedding was used up. -/
  | fuelExhausted
  /-- Go run-time panic: slice bounds out of range. -/
  | sliceBoundsOutOfRange
  deriving DecidableEq

/-- The value of `s[index]` for a slice `s` and a Go `int` index. -/
def sliceAt {α : Type} (s : List α) (index : Int) : Except Fault α :=
  if index < 0 then .error .indexOutOfRange
  else match s[index.toNat]? with
    | some v => .ok v
    | none => .error .indexOutOfRange

/-- The expression `*relation.Values[index]`. -/
def keyAt (relation : Relation) (index : Int) : Except Fault Nat :=
  sliceAt relation.Values index

/-- The fields of the row built by
`&Relation{Values: append(l.Values, r.Values...)}`, as they read when it is
built: those of `l` followed by those of `r`.  (Whether they still read so
later is the matter of `Storage.appendValues`.) -/
def concatRow (l r : Relation) : Relation :=
  ⟨l.Values ++ r.Values⟩

/-! ## Go maps `map[uint32][]*Relation` -/

/-- A Go map from keys to buckets, as a list of bindings with distinct keys. -/
abbrev GoMap := List (Nat × List Relation)

/-- The two-result lookup `val, ok := m[k]`: `none` when `ok` is false. -/
def GoMap.lookup : GoMap → Nat → Option (List Relation)
  | [], _ => none
  | (k', v) :: rest, k => if k' = k then some v else GoMap.lookup rest k

/-- The one-result lookup `m[k]`: the zero value (a nil slice) when absent. -/
def GoMap.get (m : GoMap) (k : Nat) : List Relation :=
  (m.lookup k).getD []

/-- The assignment `m[k] = v`. -/
def GoMap.set : GoMap → Nat → List Relation → GoMap
  | [], k, v => [(k, v)]
  | (k', v') :: rest, k, v =>
    if k' = k then (k, v) :: rest else (k', v') :: GoMap.set rest k v

/-! ## HashJoin -/

/-- Build phase of `HashJoin`: the loop
`for _, relation := range table1 { hashMap[key] = append(hashMap[key], relation) }`
run from the map `hashMap`. -/
def buildPhase (index1 : Int) : List Relation → GoMap → Except Fault GoMap
  | [], hashMap => .ok hashMap
  | relation :: rest, hashMap => do
    let key ← keyAt relation index1
    buildPhase index1 rest (hashMap.set key (hashMap.get key ++ [relation]))

/-- The inner loop `for _, rel := range val { outputTabe = append(outputTabe, ...) }`. -/
def emitBucket (relation : Relation) : List Relation → List Relation → List Relation
  | [], outputTabe => outputTabe
  | rel :: val, outputTabe => emitBucket relation val (outputTabe ++ [concatRow rel relation])

/-- Join phase of `HashJoin`: the loop over `table2`, run from `outputTabe`. -/
def probePhase (hashMap : GoMap) (index2 : Int) :
    List Relation → List Relation → Except Fault (List Relation)
  | [], outputTabe => .ok outputTabe
  | relation :: rest, outputTabe => do
    let key ← keyAt relation index2
    match hashMap.lookup key with
    | some val => probePhase hashMap index2 rest (emitBucket relation val outputTabe)
    | none => probePhase hashMap index2 rest outputTabe

/-- The function `HashJoin(table1, table2, index1, index2)`; the second
component of the result is the returned `error`. -/
def HashJoin (table1 table2 : List Relation) (index1 index2 : Int) :
    Except Fault (List Relation × Option String) := do
  let hashMap ← buildPhase index1 table1 []
  let outputTabe ← probePhase hashMap index2 table2 []
  pure (outputTabe, none)

/-! ## SortMergeJoin -/

/-- The comparator closures `func(i, j int) bool` handed to `sort.Slice`, as a
function of the two rows found at positions `i` and `j`:
`*table[i].Values[index] < *table[j].Values[index]`. -/
def lessByKey (index : Int) (a b : Relation) : Except Fault Bool := do
  let x ← keyAt a index
  let y ← keyAt b index
  pure (decide (x < y))

/-- The type of a routine that sorts a slice in place with a comparator that
may panic: it yields the final contents of the slice. -/
abbrev SliceSorter :=
  (Relation → Relation → Except Fault Bool) → List Relation → Except Fault (List Relation)

/-- Inner loop of the library insertion sort,
`for j := i; j > a && less(j, j-1); j-- { swap(j, j-1) }`: the row `x` sits at
position `j` and `before` lists the rows at positions `j-1, j-2, ..., a`.  The
result lists the rows at positions `i, i-1, ..., a` afterwards. -/
def sinkLeft (less : Relation → Relation → Except Fault Bool) (x : Relation) :
    List Relation → Except Fault (List Relation)
  | [] => .ok [x]
  | y :: before => do
    if (← less x y) then
      let r ← sinkLeft less x before
      pure (y :: r)
    else
      pure (x :: y :: before)

/-- Outer loop of the library insertion sort: `todo` are the rows not yet
visited, `done` the sorted rows before them, last one first. -/
def insertionSortLoop (less : Relation → Relation → Except Fault Bool) :
    List Relation → List Relation → Except Fault (List Relation)
  | [], done => .ok done.reverse
  | x :: todo, done => do
    let done ← sinkLeft less x done
    insertionSortLoop less todo done

/-- The insertion sort that `sort.Slice` runs on short slices. -/
def insertionSortSlice : SliceSorter :=
  fun less table => insertionSortLoop less table []

/-- The expression `table[i]` for a cursor `i`. -/
def rowAt (table : List Relation) (i : Nat) : Except Fault Relation :=
  match table[i]? with
  | some r => .ok r
  | none => .error .indexOutOfRange

/-- The loop
`for jPrime < len(table2) && *table1[i].Values[index1] == *table2[jPrime].Values[index2]`
with its body, started at `jPrime` with the output `outputTable`. -/
def scanJ (table1 table2 : List Relation) (index1 index2 : Int) (i : Nat) :
    Nat → Nat → List Relation → Except Fault (List Relation)
  | 0, jPrime, outputTable =>
    if jPrime < table2.length then .error .fuelExhausted else .ok outputTable
  | fuel + 1, jPrime, outputTable =>
    if jPrime < table2.length then do
      let a ← rowAt table1 i
      let x ← keyAt a index1
      let b ← rowAt table2 jPrime
      let y ← keyAt b index2
      if x = y then
        scanJ table1 table2 index1 index2 i fuel (jPrime + 1) (outputTable ++ [concatRow a b])
      else
        pure outputTable
    else
      .ok outputTable

/-- The loop
`for iPrime < len(table1) && *table1[iPrime].Values[index1] == *table2[j].Values[index2]`
with its body, started at `iPrime` with the output `outputTable`. -/
def scanI (table1 table2 : List Relation) (index1 index2 : Int) (j : Nat) :
    Nat → Nat → List Relation → Except Fault (List Relation)
  | 0, iPrime, outputTable =>
    if iPrime < table1.length then .error .fuelExhausted else .ok outputTable
  | fuel + 1, iPrime, outputTable =>
    if iPrime < table1.length then do
      let a ← rowAt table1 iPrime
      let x ← keyAt a index1
      let b ← rowAt table2 j
      let y ← keyAt b index2
      if x = y then
        scanI table1 table2 index1 index2 j fuel (iPrime + 1) (outputTable ++ [concatRow a b])
      else
        pure outputTable
    else
      .ok outputTable

/-- The merge loop `for i < len(table1) && j < len(table2) { ... }` of
`SortMergeJoin`, started at the cursors `i`, `j` with the output `outputTable`. -/
def mergeLoop (table1 table2 : List Relation) (index1 index2 : Int) :
    Nat → Nat → Nat → List Relation → Except Fault (List Relation)
  | 0, i, j, outputTable =>
    if i < table1.length ∧ j < table2.length then .error .fuelExhausted else .ok outputTable
  | fuel + 1, i, j, outputTable =>
    if i < table1.length ∧ j < table2.length then do
      let a ← rowAt table1 i
      let x ← keyAt a index1
      let b ← rowAt table2 j
      let y ← keyAt b index2
      if x < y then
        mergeLoop table1 table2 index1 index2 fuel (i + 1) j outputTable
      else if x > y then
        mergeLoop table1 table2 index1 index2 fuel i (j + 1) outputTable
      else do
        let outputTable := outputTable ++ [concatRow a b]
        let outputTable ←
          scanJ table1 table2 index1 index2 i table2.length (j + 1) outputTable
        let outputTable ←
          scanI table1 table2 index1 index2 j table1.length (i + 1) outputTable
        mergeLoop table1 table2 index1 index2 fuel (i + 1) (j + 1) outputTable
    else
      .ok outputTable

/-- What a call of `SortMergeJoin` leaves behind: the two returned values and
the contents of the caller's two slices, which the call sorts in place. -/
structure SortMergeOutcome where
  outputTable : List Relation
  err : Option String
  table1 : List Relation
  table2 : List Relation
  deriving DecidableEq

/-- The function `SortMergeJoin(table1, table2, index1, index2)`, over the
sorting routine `sortSlice`.  A panic in either sorting goroutine ends the
program. -/
def SortMergeJoin (sortSlice : SliceSorter) (table1 table2 : List Relation)
    (index1 index2 : Int) : Except Fault SortMergeOutcome := do
  let table1 ← sortSlice (lessByKey index1) table1
  let table2 ← sortSlice (lessByKey index2) table2
  let outputTable ←
    mergeLoop table1 table2 index1 index2 (table1.length + table2.length) 0 0 []
  pure ⟨outputTable, none, table1, table2⟩

/-! ## Vocabulary of the specification -/

/-- Row `r` has a field at `index`: the index is valid for `r`. -/
def HasField (r : Relation) (index : Int) : Prop :=
  0 ≤ index ∧ index.toNat < r.Values.length

instance (r : Relation) (index : Int) : Decidable (HasField r index) :=
  inferInstanceAs (Decidable (0 ≤ index ∧ index.toNat < r.Values.length))

/-- The key index `index` is valid for every row of `table`. -/
def KeysValid (table : List Relation) (index : Int) : Prop :=
  ∀ r ∈ table, HasField r index

instance (table : List Relation) (index : Int) : Decidable (KeysValid table index) :=
  inferInstanceAs (Decidable (∀ r ∈ table, HasField r index))

/-- The field of `r` at `index`, and `0` when there is none. -/
def keyOf (index : Int) (r : Relation) : Nat :=
  match keyAt r index with
  | .ok k => k
  | .error _ => 0

/-- Row `r` has a field at `index` and that field is `k`. -/
def hasKey (index : Int) (k : Nat) (r : Relation) : Bool :=
  match keyAt r index with
  | .ok x => decide (x = k)
  | .error _ => false

/-- The field of `b` at `index1` exists and equals the field of `q` at `index2`. -/
def sameKey (index1 index2 : Int) (b q : Relation) : Bool :=
  match keyAt b index1, keyAt q index2 with
  | .ok x, .ok y => decide (x = y)
  | _, _ => false

/-- The rows `b.fields ⧺ q.fields` for the build rows `b` that match the probe
row `q`, in the order of the build table. -/
def matchesOf (build : List Relation) (index1 index2 : Int) (q : Relation) : List Relation :=
  (build.filter (fun b => sameKey index1 index2 b q)).map (fun b => concatRow b q)

/-- The naive nested-loop equi-join, probe rows outermost and build rows
innermost, each in input order. -/
def nestedLoopJoin (build : List Relation) (index1 index2 : Int) :
    List Relation → List Relation
  | [] => []
  | q :: probe => matchesOf build index1 index2 q ++ nestedLoopJoin build index1 index2 probe

/-- The map `m` holds, under each key, the rows of `l` with that key, in the
order of `l`, and has no binding for a key without rows. -/
def Represents (index1 : Int) (m : GoMap) (l : List Relation) : Prop :=
  ∀ k, m.lookup k =
    if l.filter (hasKey index1 k) = [] then none else some (l.filter (hasKey index1 k))

/-- The table is in ascending (non-decreasing) order of the field at `index`. -/
def SortedByKey (index : Int) (table : List Relation) : Prop :=
  table.Pairwise (fun a b => keyOf index a ≤ keyOf index b)

/-- The guarantee of `sort.Slice` that the join relies on: when the key
comparison never panics on two rows of the slice, the call returns, the slice
holds the rows it held before, and no row is followed by one of smaller key. -/
def SortsByKey (sortSlice : SliceSorter) : Prop :=
  ∀ (index : Int) (table : List Relation),
    (∀ a ∈ table, ∀ b ∈ table, ∃ v, lessByKey index a b = .ok v) →
    ∃ sorted, sortSlice (lessByKey index) table = .ok sorted ∧ sorted.Perm table ∧
      sorted.Pairwise (fun a b => lessByKey index b a = .ok false)

/-- No key value at `index` is shared by more than two rows of `table`. -/
def KeyAtMostTwice (index : Int) (table : List Relation) : Prop :=
  ∀ r ∈ table, table.countP (fun r' => decide (keyOf index r' = keyOf index r)) ≤ 2

instance (index : Int) (table : List Relation) : Decidable (KeyAtMostTwice index table) :=
  inferInstanceAs (Decidable (∀ r ∈ table,
    table.countP (fun r' => decide (keyOf index r' = keyOf index r)) ≤ 2))

/-- The row `row` is `l.fields ⧺ r.fields` for a row `l` of the first table and
a row `r` of the second with equal keys: it starts with the fields of `l`, in
their order, and goes on with the fields of `r`, in their order. -/
def IsJoinedRow (table1 table2 : List Relation) (index1 index2 : Int) (row : Relation) : Prop :=
  ∃ l ∈ table1, ∃ r ∈ table2, keyAt l index1 = keyAt r index2 ∧
    row.Values = l.Values ++ r.Values ∧
    row.Values.take l.Values.length = l.Values ∧
    row.Values.drop l.Values.length = r.Values

/-! ## Concrete tables -/

/-- The relation `A = [(1, a), (2, b)]` of the specification's scenario, the
letters written as their character codes. -/
def scenarioA : List Relation := [⟨[1, 97]⟩, ⟨[2, 98]⟩]

/-- The relation `B = [(2, x), (2, y), (3, z)]` of the same scenario. -/
def scenarioB : List Relation := [⟨[2, 120]⟩, ⟨[2, 121]⟩, ⟨[3, 122]⟩]

/-- Three rows that share the key 5. -/
def groupA : List Relation := [⟨[5, 1]⟩, ⟨[5, 2]⟩, ⟨[5, 3]⟩]

/-- Three more rows that share the key 5. -/
def groupB : List Relation := [⟨[5, 7]⟩, ⟨[5, 8]⟩, ⟨[5, 9]⟩]

/-- An unsorted table with a key that occurs twice. -/
def unsortedA : List Relation := [⟨[3, 30]⟩, ⟨[1, 10]⟩, ⟨[3, 31]⟩, ⟨[2, 20]⟩]

/-- An unsorted table, joined on its second field, with a key that occurs twice. -/
def unsortedB : List Relation := [⟨[40, 3]⟩, ⟨[41, 4]⟩, ⟨[42, 1]⟩, ⟨[43, 3]⟩]

/-- Two tables without a common key. -/
def disjointA : List Relation := [⟨[4, 1]⟩, ⟨[2, 1]⟩, ⟨[4, 0]⟩]

/-- The other table without a key in common with `disjointA`. -/
def disjointB : List Relation := [⟨[3, 3]⟩, ⟨[1, 5]⟩]

/-- The pair `(a, b)` of a row of the first table and a row of the second has
equal keys and contributes the row `row`. -/
def contributes (index1 index2 : Int) (row : Relation) (p : Relation × Relation) : Bool :=
  sameKey index1 index2 p.1 p.2 && decide (concatRow p.1 p.2 = row)

/-! ## Ingestion: `hash` and `parseLine` -/

/-- A Go `string`: a sequence of bytes. -/
abbrev GoString := List UInt8

/-- The bytes of a string literal written with ASCII characters only. -/
def asciiBytes (s : String) : GoString :=
  s.data.map (fun c => UInt8.ofNat c.toNat)

/-- The library call `strings.Split(s, "\t")`: the pieces of `s` between
consecutive tab bytes, one more than there are tabs. -/
def splitTab : GoString → List GoString
  | [] => [[]]
  | c :: rest =>
    if c = 9 then [] :: splitTab rest
    else match splitTab rest with
      | [] => [[c]]
      | piece :: pieces => (c :: piece) :: pieces

/-- The function `hash`: the 32-bit FNV-1a sum of the bytes of `s`, as the
library computes it (xor with the byte, then multiply by the prime, in `uint32`). -/
def hash (s : GoString) : Nat :=
  s.foldl (fun h c => ((h ^^^ c.toNat) * 16777619) % 2 ^ 32) 2166136261

/-- The relation store `map[string][]*Relation`, as a list of bindings with
distinct keys. -/
abbrev Store := List (GoString × List Relation)

/-- The two-result lookup `val, ok := tables[k]`. -/
def Store.lookup : Store → GoString → Option (List Relation)
  | [], _ => none
  | (k', v) :: rest, k => if k' = k then some v else Store.lookup rest k

/-- The one-result lookup `tables[k]`: a nil slice when `k` is absent. -/
def Store.get (m : Store) (k : GoString) : List Relation :=
  (m.lookup k).getD []

/-- The assignment `tables[k] = v`. -/
def Store.set : Store → GoString → List Relation → Store
  | [], k, v => [(k, v)]
  | (k', v') :: rest, k, v =>
    if k' = k then (k, v) :: rest else (k', v') :: Store.set rest k v

/-- The function `parseLine(line, hashMap)`: it yields the store after the
call.  The slice expression `line[0:len(line)-2]` panics when the line has
fewer than two bytes. -/
def parseLine (line : GoString) (hashMap : Store) : Except Fault Store :=
  if (line.length : Int) - 2 < 0 then .error .sliceBoundsOutOfRange
  else
    match splitTab (line.take (line.length - 2)) with
    | [subject, property, object] =>
      .ok (hashMap.set property
        (hashMap.get property ++ [⟨[hash subject, hash object]⟩]))
    | _ => .ok hashMap

/-! ## The benchmark step `measureTimeSmallDataSet` -/

/-- The type of the parameter `joinFunc`. -/
abbrev JoinFunc :=
  List Relation → List Relation → Int → Int → Except Fault (List Relation × Option String)

/-- The function `measureTimeSmallDataSet(joinFunc, tables)`; `elapsed` is the
text that `fmt.Sprintf("%s", time.Since(start))` gives at the end.  The third
call assigns its error to the blank identifier, so the test after it reads the
error of the second call. -/
def measureTimeSmallDataSet (joinFunc : JoinFunc) (tables : Store) (elapsed : String) :
    Except Fault String :=
  match joinFunc (tables.get (asciiBytes "wsdbm:friendOf"))
      (tables.get (asciiBytes "wsdbm:follows")) 0 1 with
  | .error e => .error e
  | .ok (newTable, err) =>
    if err ≠ none then .ok ""
    else
      match joinFunc (tables.get (asciiBytes "wsdbm:likes")) newTable 0 1 with
      | .error e => .error e
      | .ok (newTable, err) =>
        if err ≠ none then .ok "err"
        else
          match joinFunc (tables.get (asciiBytes "rev:hasReview")) newTable 0 1 with
          | .error e => .error e
          | .ok (_, _) =>
            if err ≠ none then .ok "err"
            else .ok elapsed

/-! ## The result writer `WriteToDisc` -/

/-- The loop `for i, val := range values` of `WriteToDisc`, from position `i`
on, with `n = len(values)` and the text built so far. -/
def writeLoop (n : Nat) : Nat → List Nat → String → String
  | _, [], outputString => outputString
  | i, val :: rest, outputString =>
    let outputString := outputString ++ "%d, "
    let outputString :=
      if (i : Int) ≠ (n : Int) - 1 then outputString ++ (toString val ++ ", ")
      else outputString ++ (toString val ++ "\n")
    writeLoop n (i + 1) rest outputString

/-- The text that `WriteToDisc(filename, values)` appends to the file. -/
def WriteToDisc (values : List Nat) : String :=
  writeLoop values.length 0 values ""

/-- The comma-separated form of a sequence of fields: the decimal renderings
in order, separated by `", "`, and one newline at the end. -/
def commaSeparated : List Nat → String
  | [] => ""
  | [val] => toString val ++ "\n"
  | val :: rest => toString val ++ ", " ++ commaSeparated rest

/-- A further property of `sort.Slice`: on a slice of fewer than two rows it
calls the comparator not at all and leaves the slice as it is, and on a slice
of two or more rows it calls the comparator on every row, so that a row
without a key field makes the call panic. -/
def ComparesEveryRow (sortSlice : SliceSorter) : Prop :=
  ∀ (index : Int) (table : List Relation),
    (table.length < 2 → sortSlice (lessByKey index) table = .ok table) ∧
    (2 ≤ table.length → ¬ KeysValid table index →
      sortSlice (lessByKey index) table = .error .indexOutOfRange)

/-- A join function whose error is non-nil exactly when its first table is the
one row `(3)`. -/
def failingThirdJoin : JoinFunc :=
  fun table1 _ _ _ =>
    if table1 = [⟨[3]⟩] then .ok ([], some "join failed") else .ok ([], none)

/-- A store whose only relation is `rev:hasReview`, with the one row `(3)`. -/
def reviewStore : Store := [(asciiBytes "rev:hasReview", [⟨[3]⟩])]

/-- The line `a<tab>b<tab>c .`, as bytes. -/
def lineABC : GoString := [97, 9, 98, 9, 99, 32, 46]

/-- A store with two rows under the predicate `b` and one under `d`. -/
def smallStore : Store := [([98], [⟨[1, 2]⟩, ⟨[3, 4]⟩]), ([100], [⟨[5, 6]⟩])]

/-- A table whose one row has no field at all. -/
def emptyRowTable : List Relation := [⟨[]⟩]

/-- A table with one row of one field. -/
def oneRowTable : List Relation := [⟨[1]⟩]

namespace Storage

/-- The slice header `Values` of a row: the backing array it points into, the
cell it starts at, and its length. -/
structure Row where
  arr : Nat
  off : Nat
  len : Nat
  deriving DecidableEq

/-- The memory: the cells of each backing array.  The pointed-to integers are
never written, so a cell holds the integer its pointer points to. -/
abbrev Memory := List (List Nat)

/-- The cells of the backing array of `row`. -/
def cellsOf (mem : Memory) (row : Row) : List Nat :=
  mem.getD row.arr []

/-- The value of `cap(row.Values)`. -/
def capOf (mem : Memory) (row : Row) : Nat :=
  (cellsOf mem row).length - row.off

/-- The fields that `row` shows in the memory `mem`. -/
def fields (mem : Memory) (row : Row) : List Nat :=
  ((cellsOf mem row).drop row.off).take row.len

/-- The rows of a table as they read in the memory `mem`. -/
def readTable (mem : Memory) (table : List Row) : List Relation :=
  table.map (fun row => ⟨fields mem row⟩)

/-- The expression `*relation.Values[index]`. -/
def keyAt (mem : Memory) (relation : Row) (index : Int) : Except Fault Nat :=
  sliceAt (fields mem relation) index

/-- The cells `cells` with `vals` written from position `pos` on. -/
def writeAt (cells : List Nat) (pos : Nat) (vals : List Nat) : List Nat :=
  cells.take pos ++ vals ++ cells.drop (pos + vals.length)

/-- The capacity the runtime gives to the array that `append` allocates for
`needed` cells when the old array had `oldCap`: twice the old capacity unless
that is too small (its rule for slices under 256 cells; the rounding up to an
allocation size that follows leaves capacities 2, 4 and 8 unchanged). -/
def growCap (oldCap needed : Nat) : Nat :=
  if 2 * oldCap < needed then needed else 2 * oldCap

/-- The call `append(l.Values, r.Values...)`: the memory after it and the slice
it returns.  With enough capacity the fields of `r` go into the cells that
follow `l` in its backing array; otherwise a new array is allocated, of the
capacity `grow` says and at least as large as needed. -/
def appendValues (grow : Nat → Nat → Nat) (mem : Memory) (l r : Row) : Memory × Row :=
  let added := fields mem r
  if l.len + r.len ≤ capOf mem l then
    (mem.set l.arr (writeAt (cellsOf mem l) (l.off + l.len) added),
      ⟨l.arr, l.off, l.len + r.len⟩)
  else
    let needed := l.len + r.len
    let newCap := max needed (grow (capOf mem l) needed)
    (mem ++ [fields mem l ++ added ++ List.replicate (newCap - needed) 0],
      ⟨mem.length, 0, needed⟩)

/-- A Go map from keys to buckets of rows. -/
abbrev Buckets := List (Nat × List Row)

/-- The two-result lookup `val, ok := m[k]`. -/
def Buckets.lookup : Buckets → Nat → Option (List Row)
  | [], _ => none
  | (k', v) :: rest, k => if k' = k then some v else Buckets.lookup rest k

/-- The one-result lookup `m[k]`: a nil slice when `k` is absent. -/
def Buckets.get (m : Buckets) (k : Nat) : List Row :=
  (m.lookup k).getD []

/-- The assignment `m[k] = v`. -/
def Buckets.set : Buckets → Nat → List Row → Buckets
  | [], k, v => [(k, v)]
  | (k', v') :: rest, k, v =>
    if k' = k then (k, v) :: rest else (k', v') :: Buckets.set rest k v

/-- Build phase of `HashJoin`; it only reads the memory. -/
def buildPhase (mem : Memory) (index1 : Int) : List Row → Buckets → Except Fault Buckets
  | [], hashMap => .ok hashMap
  | relation :: rest, hashMap => do
    let key ← keyAt mem relation index1
    buildPhase mem index1 rest (hashMap.set key (hashMap.get key ++ [relation]))

/-- The inner loop `for _, rel := range val` of the join phase. -/
def emitBucket (grow : Nat → Nat → Nat) (relation : Row) :
    List Row → Memory → List Row → Memory × List Row
  | [], mem, outputTabe => (mem, outputTabe)
  | rel :: val, mem, outputTabe =>
    let (mem, newValues) := appendValues grow mem rel relation
    emitBucket grow relation val mem (outputTabe ++ [newValues])

/-- Join phase of `HashJoin`: the loop over `table2`. -/
def probePhase (grow : Nat → Nat → Nat) (hashMap : Buckets) (index2 : Int) :
    List Row → Memory → List Row → Except Fault (Memory × List Row)
  | [], mem, outputTabe => .ok (mem, outputTabe)
  | relation :: rest, mem, outputTabe => do
    let key ← keyAt mem relation index2
    match hashMap.lookup key with
    | some val =>
      let (mem, outputTabe) := emitBucket grow relation val mem outputTabe
      probePhase grow hashMap index2 rest mem outputTabe
    | none => probePhase grow hashMap index2 rest mem outputTabe

/-- What a call of a join leaves behind: the memory, the returned rows and the
returned `error`. -/
structure JoinOutcome where
  mem : Memory
  outputTable : List Row
  err : Option String
  deriving DecidableEq

/-- The returned rows as they read once the call is over. -/
def JoinOutcome.rows (out : JoinOutcome) : List Relation :=
  readTable out.mem out.outputTable

/-- The function `HashJoin(table1, table2, index1, index2)` run in the memory
`mem`. -/
def HashJoin (grow : Nat → Nat → Nat) (mem : Memory) (table1 table2 : List Row)
    (index1 index2 : Int) : Except Fault JoinOutcome := do
  let hashMap ← buildPhase mem index1 table1 []
  let (mem, outputTabe) ← probePhase grow hashMap index2 table2 mem []
  pure ⟨mem, outputTabe, none⟩

/-- The comparator closures handed to `sort.Slice`. -/
def lessByKey (mem : Memory) (index : Int) (a b : Row) : Except Fault Bool := do
  let x ← keyAt mem a index
  let y ← keyAt mem b index
  pure (decide (x < y))

/-- The type of a routine that sorts a slice of rows in place with a comparator
that may panic. -/
abbrev SliceSorter :=
  (Row → Row → Except Fault Bool) → List Row → Except Fault (List Row)

/-- Inner loop of the library insertion sort, as `JoinAlgorithms.sinkLeft`. -/
def sinkLeft (less : Row → Row → Except Fault Bool) (x : Row) :
    List Row → Except Fault (List Row)
  | [] => .ok [x]
  | y :: before => do
    if (← less x y) then
      let r ← sinkLeft less x before
      pure (y :: r)
    else
      pure (x :: y :: before)

/-- Outer loop of the library insertion sort. -/
def insertionSortLoop (less : Row → Row → Except Fault Bool) :
    List Row → List Row → Except Fault (List Row)
  | [], done => .ok done.reverse
  | x :: todo, done => do
    let done ← sinkLeft less x done
    insertionSortLoop less todo done

/-- The insertion sort that `sort.Slice` runs on short slices. -/
def insertionSortSlice : SliceSorter :=
  fun less table => insertionSortLoop less table []

/-- The expression `table[i]` for a cursor `i`. -/
def rowAt (table : List Row) (i : Nat) : Except Fault Row :=
  match table[i]? with
  | some r => .ok r
  | none => .error .indexOutOfRange

/-- The loop over `jPrime` with its body. -/
def scanJ (grow : Nat → Nat → Nat) (table1 table2 : List Row) (index1 index2 : Int) (i : Nat) :
    Nat → Nat → Memory → List Row → Except Fault (Memory × List Row)
  | 0, jPrime, mem, outputTable =>
    if jPrime < table2.length then .error .fuelExhausted else .ok (mem, outputTable)
  | fuel + 1, jPrime, mem, outputTable =>
    if jPrime < table2.length then do
      let a ← rowAt table1 i
      let x ← keyAt mem a index1
      let b ← rowAt table2 jPrime
      let y ← keyAt mem b index2
      if x = y then
        let (mem, newValues) := appendValues grow mem a b
        scanJ grow table1 table2 index1 index2 i fuel (jPrime + 1) mem
          (outputTable ++ [newValues])
      else
        pure (mem, outputTable)
    else
      .ok (mem, outputTable)

/-- The loop over `iPrime` with its body. -/
def scanI (grow : Nat → Nat → Nat) (table1 table2 : List Row) (index1 index2 : Int) (j : Nat) :
    Nat → Nat → Memory → List Row → Except Fault (Memory × List Row)
  | 0, iPrime, mem, outputTable =>
    if iPrime < table1.length then .error .fuelExhausted else .ok (mem, outputTable)
  | fuel + 1, iPrime, mem, outputTable =>
    if iPrime < table1.length then do
      let a ← rowAt table1 iPrime
      let x ← keyAt mem a index1
      let b ← rowAt table2 j
      let y ← keyAt mem b index2
      if x = y then
        let (mem, newValues) := appendValues grow mem a b
        scanI grow table1 table2 index1 index2 j fuel (iPrime + 1) mem
          (outputTable ++ [newValues])
      else
        pure (mem, outputTable)
    else
      .ok (mem, outputTable)

/-- The merge loop of `SortMergeJoin`. -/
def mergeLoop (grow : Nat → Nat → Nat) (table1 table2 : List Row) (index1 index2 : Int) :
    Nat → Nat → Nat → Memory → List Row → Except Fault (Memory × List Row)
  | 0, i, j, mem, outputTable =>
    if i < table1.length ∧ j < table2.length then .error .fuelExhausted
    else .ok (mem, outputTable)
  | fuel + 1, i, j, mem, outputTable =>
    if i < table1.length ∧ j < table2.length then do
      let a ← rowAt table1 i
      let x ← keyAt mem a index1
      let b ← rowAt table2 j
      let y ← keyAt mem b index2
      if x < y then
        mergeLoop grow table1 table2 index1 index2 fuel (i + 1) j mem outputTable
      else if x > y then
        mergeLoop grow table1 table2 index1 index2 fuel i (j + 1) mem outputTable
      else do
        let (mem, newValues) := appendValues grow mem a b
        let outputTable := outputTable ++ [newValues]
        let (mem, outputTable) ←
          scanJ grow table1 table2 index1 index2 i table2.length (j + 1) mem outputTable
        let (mem, outputTable) ←
          scanI grow table1 table2 index1 index2 j table1.length (i + 1) mem outputTable
        mergeLoop grow table1 table2 index1 index2 fuel (i + 1) (j + 1) mem outputTable
    else
      .ok (mem, outputTable)

/-- The merge phase of `SortMergeJoin` on two tables as they stand, from the
cursors `0`, `0` and an empty output. -/
def mergePhase (grow : Nat → Nat → Nat) (mem : Memory) (table1 table2 : List Row)
    (index1 index2 : Int) : Except Fault JoinOutcome := do
  let (mem, outputTable) ←
    mergeLoop grow table1 table2 index1 index2 (table1.length + table2.length) 0 0 mem []
  pure ⟨mem, outputTable, none⟩

/-- What a call of `SortMergeJoin` leaves behind: the outcome of the merge and
the caller's two slices, which the call sorts in place. -/
structure SortMergeOutcome where
  joined : JoinOutcome
  table1 : List Row
  table2 : List Row
  deriving DecidableEq

/-- The function `SortMergeJoin(table1, table2, index1, index2)` run in the
memory `mem`, over the sorting routine `sortSlice`. -/
def SortMergeJoin (sortSlice : SliceSorter) (grow : Nat → Nat → Nat) (mem : Memory)
    (table1 table2 : List Row) (index1 index2 : Int) : Except Fault SortMergeOutcome := do
  let table1 ← sortSlice (lessByKey mem index1) table1
  let table2 ← sortSlice (lessByKey mem index2) table2
  let joined ← mergePhase grow mem table1 table2 index1 index2
  pure ⟨joined, table1, table2⟩

/-- The row lies within the memory: its array exists and holds its cells. -/
def WellFormed (mem : Memory) (row : Row) : Prop :=
  row.arr < mem.length ∧ row.off + row.len ≤ (cellsOf mem row).length

instance (mem : Memory) (row : Row) : Decidable (WellFormed mem row) :=
  inferInstanceAs (Decidable (row.arr < mem.length ∧ row.off + row.len ≤ (cellsOf mem row).length))

/-- The row has no spare capacity: `cap(row.Values) == len(row.Values)`. -/
def NoSpare (mem : Memory) (row : Row) : Prop :=
  capOf mem row = row.len

instance (mem : Memory) (row : Row) : Decidable (NoSpare mem row) :=
  inferInstanceAs (Decidable (capOf mem row = row.len))

/-- The buckets of a map as they read in the memory `mem`. -/
def readBuckets (mem : Memory) (m : Buckets) : GoMap :=
  m.map (fun p => (p.1, readTable mem p.2))

/-- Every row of every bucket of the map satisfies `P`. -/
def Buckets.AllRows (P : Row → Prop) (m : Buckets) : Prop :=
  ∀ p ∈ m, ∀ row ∈ p.2, P row

/-- The outcome `r` of a loop run with the storage of the rows, started in the
memory `mem`, agrees with the outcome `v` of the same loop run on field
sequences: both panic alike, or both return, the memory has only got new
arrays, and the rows returned lie within it and read as the rows of `v`. -/
def Simulates (mem : Memory) (r : Except Fault (Memory × List Row))
    (v : Except Fault (List Relation)) : Prop :=
  match r, v with
  | .error e, .error e' => e = e'
  | .ok p, .ok rows =>
    (∃ extra, p.1 = mem ++ extra) ∧ (∀ o ∈ p.2, WellFormed p.1 o) ∧ readTable p.1 p.2 = rows
  | _, _ => False

/-- The sorting routine does on rows in memory what `sortSlice` does on their
field sequences, and only rearranges the slice. -/
def SortersAgree (sortRows : SliceSorter) (sortSlice : JoinAlgorithms.SliceSorter) : Prop :=
  ∀ (mem : Memory) (index : Int) (table : List Row),
    (sortRows (lessByKey mem index) table).map (readTable mem)
      = sortSlice (JoinAlgorithms.lessByKey index) (readTable mem table) ∧
    ∀ sorted, sortRows (lessByKey mem index) table = .ok sorted → sorted.Perm table

end Storage

/-! ## Concrete memories -/

/-- A memory with the row `(1,2,1,5,1,6)` in an array of eight cells, which is
what two chained joins of 2-field rows return, and the rows `(1,100)` and
`(1,200)`. -/
def spareMem : Storage.Memory := [[1, 2, 1, 5, 1, 6, 0, 0], [1, 100], [1, 200]]

/-- The table of the one row `(1,2,1,5,1,6)` of `spareMem`: length 6, capacity 8. -/
def spareLeft : List Storage.Row := [⟨0, 0, 6⟩]

/-- The table of the rows `(1,100)` and `(1,200)` of `spareMem`. -/
def twoRight : List Storage.Row := [⟨1, 0, 2⟩, ⟨2, 0, 2⟩]

/-- The same two rows in the other order. -/
def twoRightSwapped : List Storage.Row := [⟨2, 0, 2⟩, ⟨1, 0, 2⟩]

/-- Five rows of two fields, each in an array of exactly two cells, as
`parseLine` makes them. -/
def parsedMem : Storage.Memory := [[1, 2], [1, 5], [1, 6], [1, 100], [1, 200]]

/-- A memory with the row `(1,0)` in an array of eight cells and the rows
`(9,1,7)` and `(8,1)`. -/
def mixedMem : Storage.Memory := [[1, 0, 0, 0, 0, 0, 0, 0], [9, 1, 7], [8, 1]]

/-- The table of the one row `(1,0)` of `mixedMem`: length 2, capacity 8. -/
def mixedLeft : List Storage.Row := [⟨0, 0, 2⟩]

/-- The table of the rows `(9,1,7)` and `(8,1)` of `mixedMem`. -/
def mixedRight : List Storage.Row := [⟨1, 0, 3⟩, ⟨2, 0, 2⟩]

/-- A memory with one array of five cells that holds `1, 1, 11`, and the rows
`(1,7)` and `(1)`. -/
def sharedMem : Storage.Memory := [[1, 1, 11, 0, 0], [1, 7], [1]]

/-- Two rows of `sharedMem` that view the same array, `(1,1,11)` and `(1,1)`:
what `HashJoin` returns for the row `(1)` of capacity 5 joined with `(1,11)` and
`(1)`. -/
def sharedLeft : List Storage.Row := [⟨0, 0, 3⟩, ⟨0, 0, 2⟩]

/-- The table of the rows `(1,7)` and `(1)` of `sharedMem`. -/
def sharedRight : List Storage.Row := [⟨1, 0, 2⟩, ⟨2, 0, 1⟩]

/-! # Theorems -/

/-! ## Reading keys -/

theorem keyAt_of_hasField {r : Relation} {index : Int} (h : HasField r index) :
    keyAt r index = .ok (keyOf index r) := by
  obtain ⟨h0, h1⟩ := h
  have hk : ∃ k, keyAt r index = .ok k := by
    unfold keyAt sliceAt
    rw [if_neg (not_lt.mpr h0), List.getElem?_eq_getElem h1]
    exact ⟨_, rfl⟩
  obtain ⟨k, hk⟩ := hk
  simp [keyOf, hk]

theorem keyAt_of_not_hasField {r : Relation} {index : Int} (h : ¬ HasField r index) :
    keyAt r index = .error .indexOutOfRange := by
  unfold keyAt sliceAt
  by_cases h0 : index < 0
  · rw [if_pos h0]
  · rw [if_neg h0]
    have h1 : r.Values.length ≤ index.toNat := by
      by_contra hc
      exact h ⟨not_lt.mp h0, not_le.mp hc⟩
    rw [List.getElem?_eq_none h1]

theorem hasKey_of_keyAt {index : Int} {r : Relation} {k : Nat} (h : keyAt r index = .ok k)
    (k' : Nat) : hasKey index k' r = decide (k = k') := by
  simp [hasKey, h]

theorem sameKey_of_keyAt {index1 index2 : Int} {q : Relation} {k : Nat}
    (h : keyAt q index2 = .ok k) (b : Relation) :
    sameKey index1 index2 b q = hasKey index1 k b := by
  unfold sameKey hasKey
  rw [h]
  cases keyAt b index1 <;> rfl

theorem sameKey_eq_decide {index1 index2 : Int} {b q : Relation}
    (hb : HasField b index1) (hq : HasField q index2) :
    sameKey index1 index2 b q = decide (keyOf index1 b = keyOf index2 q) := by
  simp [sameKey, keyAt_of_hasField hb, keyAt_of_hasField hq]

/-! ## Go maps -/

theorem GoMap.lookup_set (m : GoMap) (k k' : Nat) (v : List Relation) :
    (m.set k v).lookup k' = if k = k' then some v else m.lookup k' := by
  induction m with
  | nil => simp [GoMap.set, GoMap.lookup]
  | cons p rest ih =>
    obtain ⟨k0, v0⟩ := p
    by_cases h0 : k0 = k
    · subst h0
      by_cases h1 : k0 = k' <;> simp [GoMap.set, GoMap.lookup, h1]
    · by_cases h1 : k0 = k'
      · subst h1
        have : ¬ k = k0 := fun h => h0 h.symm
        simp [GoMap.set, GoMap.lookup, h0, this]
      · simp [GoMap.set, GoMap.lookup, h0, h1, ih]

/-! ## HashJoin -/

theorem buildPhase_represents (index1 : Int) :
    ∀ (rest done : List Relation) (m : GoMap), KeysValid rest index1 →
      Represents index1 m done →
      ∃ m', buildPhase index1 rest m = .ok m' ∧ Represents index1 m' (done ++ rest) := by
  intro rest
  induction rest with
  | nil =>
    intro done m _ hm
    exact ⟨m, rfl, by simpa using hm⟩
  | cons r rest ih =>
    intro done m hv hm
    have hk := keyAt_of_hasField (hv r (List.mem_cons_self _ _))
    have hv' : KeysValid rest index1 := fun x hx => hv x (List.mem_cons_of_mem _ hx)
    have hstep : Represents index1 (m.set (keyOf index1 r) (m.get (keyOf index1 r) ++ [r]))
        (done ++ [r]) := by
      intro k'
      rw [GoMap.lookup_set, List.filter_append]
      by_cases hkk : keyOf index1 r = k'
      · subst hkk
        have hr : hasKey index1 (keyOf index1 r) r = true := by simp [hasKey_of_keyAt hk]
        have hget : m.get (keyOf index1 r) = done.filter (hasKey index1 (keyOf index1 r)) := by
          unfold GoMap.get
          rw [hm (keyOf index1 r)]
          split <;> simp_all
        simp [hr, hget]
      · have hr : hasKey index1 k' r = false := by simp [hasKey_of_keyAt hk, hkk]
        simp [hkk, hr, hm k']
    obtain ⟨m', h1, h2⟩ := ih (done ++ [r]) _ hv' hstep
    refine ⟨m', ?_, by simpa using h2⟩
    simp only [buildPhase, hk]
    exact h1

theorem buildPhase_error (index1 : Int) :
    ∀ (rest : List Relation) (m : GoMap), ¬ KeysValid rest index1 →
      buildPhase index1 rest m = .error .indexOutOfRange := by
  intro rest
  induction rest with
  | nil => intro m h; exact absurd (fun r hr => by cases hr) h
  | cons r rest ih =>
    intro m h
    by_cases hr : HasField r index1
    · have hrest : ¬ KeysValid rest index1 := by
        intro hv
        apply h
        intro x hx
        rcases List.mem_cons.mp hx with rfl | hx
        · exact hr
        · exact hv x hx
      simp only [buildPhase, keyAt_of_hasField hr]
      exact ih _ hrest
    · simp only [buildPhase, keyAt_of_not_hasField hr]
      rfl

theorem emitBucket_eq (q : Relation) :
    ∀ (val out : List Relation), emitBucket q val out = out ++ val.map (fun b => concatRow b q) := by
  intro val
  induction val with
  | nil => intro out; simp [emitBucket]
  | cons b val ih => intro out; simp [emitBucket, ih]

theorem probePhase_eq (index1 index2 : Int) (m : GoMap) (table1 : List Relation)
    (hm : Represents index1 m table1) :
    ∀ (rest out : List Relation), KeysValid rest index2 →
      probePhase m index2 rest out = .ok (out ++ nestedLoopJoin table1 index1 index2 rest) := by
  intro rest
  induction rest with
  | nil => intro out _; simp [probePhase, nestedLoopJoin]
  | cons q rest ih =>
    intro out hv
    have hk := keyAt_of_hasField (hv q (List.mem_cons_self _ _))
    have hv' : KeysValid rest index2 := fun x hx => hv x (List.mem_cons_of_mem _ hx)
    have hmatch : matchesOf table1 index1 index2 q
        = (table1.filter (hasKey index1 (keyOf index2 q))).map (fun b => concatRow b q) := by
      unfold matchesOf
      congr 1
      apply List.filter_congr
      intro b _
      exact sameKey_of_keyAt hk b
    simp only [probePhase, hk, nestedLoopJoin, hmatch]
    show (match m.lookup (keyOf index2 q) with
      | some val => probePhase m index2 rest (emitBucket q val out)
      | none => probePhase m index2 rest out) = _
    rw [hm (keyOf index2 q)]
    by_cases he : table1.filter (hasKey index1 (keyOf index2 q)) = []
    · simp [he, ih out hv']
    · simp [he, ih _ hv', emitBucket_eq]

theorem probePhase_error (index2 : Int) (m : GoMap) :
    ∀ (rest out : List Relation), ¬ KeysValid rest index2 →
      probePhase m index2 rest out = .error .indexOutOfRange := by
  intro rest
  induction rest with
  | nil => intro out h; exact absurd (fun r hr => by cases hr) h
  | cons q rest ih =>
    intro out h
    by_cases hq : HasField q index2
    · have hrest : ¬ KeysValid rest index2 := by
        intro hv
        apply h
        intro x hx
        rcases List.mem_cons.mp hx with rfl | hx
        · exact hq
        · exact hv x hx
      simp only [probePhase, keyAt_of_hasField hq]
      show (match m.lookup (keyOf index2 q) with
        | some val => probePhase m index2 rest (emitBucket q val out)
        | none => probePhase m index2 rest out) = _
      cases m.lookup (keyOf index2 q) with
      | none => exact ih _ hrest
      | some val => exact ih _ hrest
    · simp only [probePhase, keyAt_of_not_hasField hq]
      rfl

theorem hashJoin_ok (table1 table2 : List Relation) (index1 index2 : Int)
    (h1 : KeysValid table1 index1) (h2 : KeysValid table2 index2) :
    HashJoin table1 table2 index1 index2
      = .ok (nestedLoopJoin table1 index1 index2 table2, none) := by
  obtain ⟨m, hb, hr⟩ :=
    buildPhase_represents index1 table1 [] [] h1 (by intro k; simp [GoMap.lookup])
  simp only [List.nil_append] at hr
  unfold HashJoin
  rw [hb]
  show (do let outputTabe ← probePhase m index2 table2 []; pure (outputTabe, none)) = _
  rw [probePhase_eq index1 index2 m table1 hr table2 [] h2]
  rfl

theorem hashJoin_error (table1 table2 : List Relation) (index1 index2 : Int)
    (h : ¬ (KeysValid table1 index1 ∧ KeysValid table2 index2)) :
    HashJoin table1 table2 index1 index2 = .error .indexOutOfRange := by
  unfold HashJoin
  by_cases h1 : KeysValid table1 index1
  · have h2 : ¬ KeysValid table2 index2 := fun h2 => h ⟨h1, h2⟩
    obtain ⟨m, hb, _⟩ :=
      buildPhase_represents index1 table1 [] [] h1 (by intro k; simp [GoMap.lookup])
    rw [hb]
    show (do let outputTabe ← probePhase m index2 table2 []; pure (outputTabe, none)) = _
    rw [probePhase_error index2 m table2 [] h2]
    rfl
  · rw [buildPhase_error index1 table1 [] h1]
    rfl

/-! ## The merge phase of SortMergeJoin -/

theorem ok_bind {α β : Type} (a : α) (f : α → Except Fault β) :
    ((Except.ok a : Except Fault α) >>= f) = f a := rfl

theorem error_bind {α β : Type} (e : Fault) (f : α → Except Fault β) :
    ((Except.error e : Except Fault α) >>= f) = .error e := rfl

theorem rowAt_of_lt {table : List Relation} {i : Nat} (h : i < table.length) :
    rowAt table i = .ok table[i] := by
  unfold rowAt
  rw [List.getElem?_eq_getElem h]

theorem filter_eq_takeWhile_of_sorted (key : Relation → Nat) (k : Nat) :
    ∀ l : List Relation, l.Pairwise (fun a b => key a ≤ key b) → (∀ r ∈ l, k ≤ key r) →
      l.filter (fun r => decide (key r = k)) = l.takeWhile (fun r => decide (key r = k)) := by
  intro l
  induction l with
  | nil => intro _ _; rfl
  | cons r l ih =>
    intro hs hge
    rw [List.pairwise_cons] at hs
    have hge' : ∀ x ∈ l, k ≤ key x := fun x hx => hge x (List.mem_cons_of_mem _ hx)
    by_cases hk : key r = k
    · simp only [List.filter_cons, List.takeWhile_cons, hk, decide_True, if_true]
      rw [ih hs.2 hge']
    · have hlt : k < key r := lt_of_le_of_ne (hge r (List.mem_cons_self _ _)) (Ne.symm hk)
      have hnone : l.filter (fun r => decide (key r = k)) = [] := by
        rw [List.filter_eq_nil_iff]
        intro x hx
        have := hs.1 x hx
        simp only [decide_eq_true_eq]
        omega
      simp [List.filter_cons, List.takeWhile_cons, hk, hnone]

theorem scanJ_eq (table1 table2 : List Relation) (index1 index2 : Int) (i : Nat)
    (hi : i < table1.length) (h1 : HasField table1[i] index1) (h2 : KeysValid table2 index2) :
    ∀ (fuel jPrime : Nat) (out : List Relation), table2.length - jPrime ≤ fuel →
      scanJ table1 table2 index1 index2 i fuel jPrime out
        = .ok (out ++ ((table2.drop jPrime).takeWhile
            (fun b => decide (keyOf index2 b = keyOf index1 table1[i]))).map
              (fun b => concatRow table1[i] b)) := by
  intro fuel
  induction fuel with
  | zero =>
    intro jPrime out hf
    have hj : ¬ jPrime < table2.length := by omega
    have hd : table2.drop jPrime = [] := List.drop_eq_nil_of_le (by omega)
    simp [scanJ, hj, hd]
  | succ fuel ih =>
    intro jPrime out hf
    by_cases hj : jPrime < table2.length
    · have hb : HasField table2[jPrime] index2 := h2 _ (List.getElem_mem hj)
      rw [List.drop_eq_getElem_cons hj]
      simp only [scanJ, if_pos hj, rowAt_of_lt hi, rowAt_of_lt hj, keyAt_of_hasField h1,
        keyAt_of_hasField hb, ok_bind, List.takeWhile_cons]
      by_cases hk : keyOf index1 table1[i] = keyOf index2 table2[jPrime]
      · rw [if_pos hk, ih (jPrime + 1) _ (by omega)]
        simp [hk]
      · have hk' : ¬ keyOf index2 table2[jPrime] = keyOf index1 table1[i] := fun h => hk h.symm
        rw [if_neg hk]
        simp [hk']
        rfl
    · have hd : table2.drop jPrime = [] := List.drop_eq_nil_of_le (by omega)
      simp [scanJ, hj, hd]

theorem scanI_eq (table1 table2 : List Relation) (index1 index2 : Int) (j : Nat)
    (hj : j < table2.length) (h2 : HasField table2[j] index2) (h1 : KeysValid table1 index1) :
    ∀ (fuel iPrime : Nat) (out : List Relation), table1.length - iPrime ≤ fuel →
      scanI table1 table2 index1 index2 j fuel iPrime out
        = .ok (out ++ ((table1.drop iPrime).takeWhile
            (fun a => decide (keyOf index1 a = keyOf index2 table2[j]))).map
              (fun a => concatRow a table2[j])) := by
  intro fuel
  induction fuel with
  | zero =>
    intro iPrime out hf
    have hi : ¬ iPrime < table1.length := by omega
    have hd : table1.drop iPrime = [] := List.drop_eq_nil_of_le (by omega)
    simp [scanI, hi, hd]
  | succ fuel ih =>
    intro iPrime out hf
    by_cases hi : iPrime < table1.length
    · have ha : HasField table1[iPrime] index1 := h1 _ (List.getElem_mem hi)
      rw [List.drop_eq_getElem_cons hi]
      simp only [scanI, if_pos hi, rowAt_of_lt hi, rowAt_of_lt hj, keyAt_of_hasField h2,
        keyAt_of_hasField ha, ok_bind, List.takeWhile_cons]
      by_cases hk : keyOf index1 table1[iPrime] = keyOf index2 table2[j]
      · rw [if_pos hk, ih (iPrime + 1) _ (by omega)]
        simp [hk]
      · rw [if_neg hk]
        simp [hk]
        rfl
    · have hd : table1.drop iPrime = [] := List.drop_eq_nil_of_le (by omega)
      simp [scanI, hi, hd]

/-! ## The nested-loop join as a multiset -/

theorem nestedLoopJoin_nil_build (index1 index2 : Int) :
    ∀ probe : List Relation, nestedLoopJoin [] index1 index2 probe = [] := by
  intro probe
  induction probe with
  | nil => rfl
  | cons q probe ih => simp [nestedLoopJoin, matchesOf, ih]

theorem matchesOf_cons (a : Relation) (build : List Relation) (index1 index2 : Int)
    (q : Relation) :
    matchesOf (a :: build) index1 index2 q
      = (if sameKey index1 index2 a q then [concatRow a q] else [])
        ++ matchesOf build index1 index2 q := by
  unfold matchesOf
  by_cases h : sameKey index1 index2 a q = true
  · simp [List.filter_cons, h]
  · simp [List.filter_cons, h]

/-- Splitting off the first build row: its matches, in probe order, and the
join of the other build rows. -/
theorem nestedLoopJoin_cons_build (a : Relation) (build : List Relation) (index1 index2 : Int) :
    ∀ probe : List Relation,
      (nestedLoopJoin (a :: build) index1 index2 probe).Perm
        ((probe.filter (fun q => sameKey index1 index2 a q)).map (fun q => concatRow a q)
          ++ nestedLoopJoin build index1 index2 probe) := by
  intro probe
  induction probe with
  | nil => simp [nestedLoopJoin]
  | cons q probe ih =>
    rw [List.perm_iff_count] at ih ⊢
    intro r
    have ih := ih r
    simp only [nestedLoopJoin, matchesOf_cons, List.count_append] at ih ⊢
    by_cases h : sameKey index1 index2 a q = true
    · simp only [List.filter_cons, h, if_true, List.map_cons, List.count_cons, List.count_nil]
      omega
    · simp only [List.filter_cons, h, if_false, List.count_nil]
      simp only [Bool.false_eq_true, if_false, List.count_nil]
      omega

theorem nestedLoopJoin_perm_probe (build : List Relation) (index1 index2 : Int)
    {probe probe' : List Relation} (h : probe.Perm probe') :
    (nestedLoopJoin build index1 index2 probe).Perm
      (nestedLoopJoin build index1 index2 probe') := by
  induction h with
  | nil => exact List.Perm.refl _
  | cons q _ ih => exact List.Perm.append_left _ ih
  | swap p q l =>
    simp only [nestedLoopJoin]
    rw [← List.append_assoc, ← List.append_assoc]
    exact List.Perm.append_right _ List.perm_append_comm
  | trans _ _ ih1 ih2 => exact ih1.trans ih2

theorem nestedLoopJoin_perm_build {build build' : List Relation} (index1 index2 : Int)
    (h : build.Perm build') :
    ∀ probe : List Relation, (nestedLoopJoin build index1 index2 probe).Perm
      (nestedLoopJoin build' index1 index2 probe) := by
  intro probe
  induction probe with
  | nil => exact List.Perm.refl _
  | cons q probe ih =>
    simp only [nestedLoopJoin]
    exact List.Perm.append ((h.filter _).map _) ih

theorem nestedLoopJoin_perm {build build' probe probe' : List Relation} (index1 index2 : Int)
    (hb : build.Perm build') (hp : probe.Perm probe') :
    (nestedLoopJoin build index1 index2 probe).Perm
      (nestedLoopJoin build' index1 index2 probe') :=
  (nestedLoopJoin_perm_build index1 index2 hb probe).trans
    (nestedLoopJoin_perm_probe build' index1 index2 hp)

/-- A row is in the join exactly when it is the concatenation of a build row
and a probe row with equal keys. -/
theorem mem_nestedLoopJoin {build : List Relation} {index1 index2 : Int} {row : Relation} :
    ∀ {probe : List Relation}, row ∈ nestedLoopJoin build index1 index2 probe ↔
      ∃ b ∈ build, ∃ q ∈ probe, sameKey index1 index2 b q = true ∧ row = concatRow b q := by
  intro probe
  induction probe with
  | nil => simp [nestedLoopJoin]
  | cons q probe ih =>
    simp only [nestedLoopJoin, List.mem_append, ih, matchesOf, List.mem_map, List.mem_filter,
      List.mem_cons]
    constructor
    · rintro (⟨b, ⟨hb, hs⟩, rfl⟩ | ⟨b, hb, q', hq', hs, rfl⟩)
      · exact ⟨b, hb, q, Or.inl rfl, hs, rfl⟩
      · exact ⟨b, hb, q', Or.inr hq', hs, rfl⟩
    · rintro ⟨b, hb, q', (rfl | hq'), hs, rfl⟩
      · exact Or.inl ⟨b, ⟨hb, hs⟩, rfl⟩
      · exact Or.inr ⟨b, hb, q', hq', hs, rfl⟩

/-! ## One step of the merge, on the rows still ahead of the cursors -/

theorem join_skip_left {a b : Relation} {as bs : List Relation} {index1 index2 : Int}
    (ha : HasField a index1) (hbs : KeysValid (b :: bs) index2)
    (hs : SortedByKey index2 (b :: bs)) (hlt : keyOf index1 a < keyOf index2 b) :
    (nestedLoopJoin (a :: as) index1 index2 (b :: bs)).Perm
      (nestedLoopJoin as index1 index2 (b :: bs)) := by
  have hnone : (b :: bs).filter (fun q => sameKey index1 index2 a q) = [] := by
    rw [List.filter_eq_nil_iff]
    intro q hq
    rw [sameKey_eq_decide ha (hbs q hq)]
    have hge : keyOf index2 b ≤ keyOf index2 q := by
      rcases List.mem_cons.mp hq with rfl | hq
      · exact le_refl _
      · exact (List.pairwise_cons.mp hs).1 q hq
    simp only [decide_eq_true_eq]
    omega
  have h := nestedLoopJoin_cons_build a as index1 index2 (b :: bs)
  rw [hnone] at h
  simpa using h

theorem join_skip_right {a b : Relation} {as bs : List Relation} {index1 index2 : Int}
    (hb : HasField b index2) (has : KeysValid (a :: as) index1)
    (hs : SortedByKey index1 (a :: as)) (hgt : keyOf index2 b < keyOf index1 a) :
    nestedLoopJoin (a :: as) index1 index2 (b :: bs)
      = nestedLoopJoin (a :: as) index1 index2 bs := by
  have hnone : (a :: as).filter (fun x => sameKey index1 index2 x b) = [] := by
    rw [List.filter_eq_nil_iff]
    intro x hx
    rw [sameKey_eq_decide (has x hx) hb]
    have hge : keyOf index1 a ≤ keyOf index1 x := by
      rcases List.mem_cons.mp hx with rfl | hx
      · exact le_refl _
      · exact (List.pairwise_cons.mp hs).1 x hx
    simp only [decide_eq_true_eq]
    omega
  simp [nestedLoopJoin, matchesOf, hnone]

theorem join_match {a b : Relation} {as bs : List Relation} {index1 index2 : Int}
    (has : KeysValid (a :: as) index1) (hbs : KeysValid (b :: bs) index2)
    (hsa : SortedByKey index1 (a :: as)) (hsb : SortedByKey index2 (b :: bs))
    (heq : keyOf index1 a = keyOf index2 b) :
    (nestedLoopJoin (a :: as) index1 index2 (b :: bs)).Perm
      ([concatRow a b]
        ++ (bs.takeWhile (fun q => decide (keyOf index2 q = keyOf index1 a))).map
            (fun q => concatRow a q)
        ++ (as.takeWhile (fun x => decide (keyOf index1 x = keyOf index2 b))).map
            (fun x => concatRow x b)
        ++ nestedLoopJoin as index1 index2 bs) := by
  have ha : HasField a index1 := has a (List.mem_cons_self _ _)
  have hb : HasField b index2 := hbs b (List.mem_cons_self _ _)
  have hsa' := List.pairwise_cons.mp hsa
  have hsb' := List.pairwise_cons.mp hsb
  have hrowsA : (b :: bs).filter (fun q => sameKey index1 index2 a q)
      = b :: bs.takeWhile (fun q => decide (keyOf index2 q = keyOf index1 a)) := by
    have hab : sameKey index1 index2 a b = true := by
      rw [sameKey_eq_decide ha hb]; simp [heq]
    rw [List.filter_cons, if_pos hab]
    congr 1
    rw [← filter_eq_takeWhile_of_sorted (keyOf index2) (keyOf index1 a) bs hsb'.2
      (fun q hq => by rw [heq]; exact hsb'.1 q hq)]
    apply List.filter_congr
    intro q hq
    rw [sameKey_eq_decide ha (hbs q (List.mem_cons_of_mem _ hq))]
    exact decide_eq_decide.mpr eq_comm
  have hrowsB : matchesOf as index1 index2 b
      = (as.takeWhile (fun x => decide (keyOf index1 x = keyOf index2 b))).map
          (fun x => concatRow x b) := by
    unfold matchesOf
    congr 1
    rw [← filter_eq_takeWhile_of_sorted (keyOf index1) (keyOf index2 b) as hsa'.2
      (fun x hx => by rw [← heq]; exact hsa'.1 x hx)]
    apply List.filter_congr
    intro x hx
    exact sameKey_eq_decide (has x (List.mem_cons_of_mem _ hx)) hb
  have h := nestedLoopJoin_cons_build a as index1 index2 (b :: bs)
  rw [hrowsA] at h
  simp only [nestedLoopJoin, hrowsB] at h
  simpa using h

theorem keysValid_drop {table : List Relation} {index : Int} (h : KeysValid table index)
    (n : Nat) : KeysValid (table.drop n) index :=
  fun r hr => h r (List.mem_of_mem_drop hr)

theorem sortedByKey_drop {table : List Relation} {index : Int} (h : SortedByKey index table)
    (n : Nat) : SortedByKey index (table.drop n) :=
  List.Pairwise.sublist (List.drop_sublist n table) h

/-- The merge loop on sorted tables with valid keys: it returns, and what it
adds to the output is, as a multiset, the join of the rows from the two cursors
onwards. -/
theorem mergeLoop_spec (table1 table2 : List Relation) (index1 index2 : Int)
    (h1 : KeysValid table1 index1) (h2 : KeysValid table2 index2)
    (s1 : SortedByKey index1 table1) (s2 : SortedByKey index2 table2) :
    ∀ (fuel i j : Nat) (out : List Relation),
      (table1.length - i) + (table2.length - j) ≤ fuel →
      ∃ res, mergeLoop table1 table2 index1 index2 fuel i j out = .ok (out ++ res) ∧
        res.Perm (nestedLoopJoin (table1.drop i) index1 index2 (table2.drop j)) := by
  intro fuel
  induction fuel with
  | zero =>
    intro i j out hf
    have hc : ¬ (i < table1.length ∧ j < table2.length) := by omega
    have hd : table2.drop j = [] := List.drop_eq_nil_of_le (by omega)
    refine ⟨[], ?_, ?_⟩
    · simp [mergeLoop, hc]
    · rw [hd]; exact List.Perm.refl _
  | succ fuel ih =>
    intro i j out hf
    by_cases hc : i < table1.length ∧ j < table2.length
    · obtain ⟨hi, hj⟩ := hc
      have ha : HasField table1[i] index1 := h1 _ (List.getElem_mem hi)
      have hb : HasField table2[j] index2 := h2 _ (List.getElem_mem hj)
      have hdi : table1.drop i = table1[i] :: table1.drop (i + 1) := List.drop_eq_getElem_cons hi
      have hdj : table2.drop j = table2[j] :: table2.drop (j + 1) := List.drop_eq_getElem_cons hj
      have hva := keysValid_drop h1 i
      have hvb := keysValid_drop h2 j
      have hsa := sortedByKey_drop s1 i
      have hsb := sortedByKey_drop s2 j
      rw [hdi] at hva hsa
      rw [hdj] at hvb hsb
      simp only [mergeLoop, if_pos (And.intro hi hj), rowAt_of_lt hi, rowAt_of_lt hj,
        keyAt_of_hasField ha, keyAt_of_hasField hb, ok_bind]
      by_cases hlt : keyOf index1 table1[i] < keyOf index2 table2[j]
      · rw [if_pos hlt]
        obtain ⟨res, he, hp⟩ := ih (i + 1) j out (by omega)
        refine ⟨res, he, ?_⟩
        rw [hdi]
        rw [hdj] at hp ⊢
        exact hp.trans (join_skip_left ha hvb hsb hlt).symm
      · rw [if_neg hlt]
        by_cases hgt : keyOf index1 table1[i] > keyOf index2 table2[j]
        · rw [if_pos hgt]
          obtain ⟨res, he, hp⟩ := ih i (j + 1) out (by omega)
          refine ⟨res, he, ?_⟩
          rw [hdj]
          rw [hdi] at hp ⊢
          rw [join_skip_right hb hva hsa hgt]
          exact hp
        · rw [if_neg hgt]
          have heq : keyOf index1 table1[i] = keyOf index2 table2[j] := by omega
          rw [scanJ_eq table1 table2 index1 index2 i hi ha h2 table2.length (j + 1) _ (by omega)]
          simp only [ok_bind]
          rw [scanI_eq table1 table2 index1 index2 j hj hb h1 table1.length (i + 1) _ (by omega)]
          simp only [ok_bind]
          obtain ⟨res, he, hp⟩ := ih (i + 1) (j + 1)
            (out ++ [concatRow table1[i] table2[j]] ++
              ((table2.drop (j + 1)).takeWhile
                (fun b => decide (keyOf index2 b = keyOf index1 table1[i]))).map
                  (fun b => concatRow table1[i] b) ++
              ((table1.drop (i + 1)).takeWhile
                (fun a => decide (keyOf index1 a = keyOf index2 table2[j]))).map
                  (fun a => concatRow a table2[j])) (by omega)
          refine ⟨[concatRow table1[i] table2[j]] ++
              ((table2.drop (j + 1)).takeWhile
                (fun b => decide (keyOf index2 b = keyOf index1 table1[i]))).map
                  (fun b => concatRow table1[i] b) ++
              ((table1.drop (i + 1)).takeWhile
                (fun a => decide (keyOf index1 a = keyOf index2 table2[j]))).map
                  (fun a => concatRow a table2[j]) ++ res, ?_, ?_⟩
          · rw [he]
            simp only [List.append_assoc]
          · rw [hdi, hdj]
            exact (List.Perm.append_left _ hp).trans (join_match hva hvb hsa hsb heq).symm
    · refine ⟨[], ?_, ?_⟩
      · simp [mergeLoop, hc]
      · have : table1.drop i = [] ∨ table2.drop j = [] := by
          by_cases hi : i < table1.length
          · exact Or.inr (List.drop_eq_nil_of_le (by omega))
          · exact Or.inl (List.drop_eq_nil_of_le (by omega))
        rcases this with h | h
        · rw [h, nestedLoopJoin_nil_build]
        · rw [h]; exact List.Perm.refl _

/-! ## Sorting -/

theorem lessByKey_of_hasField {index : Int} {a b : Relation} (ha : HasField a index)
    (hb : HasField b index) :
    lessByKey index a b = .ok (decide (keyOf index a < keyOf index b)) := by
  simp only [lessByKey, keyAt_of_hasField ha, keyAt_of_hasField hb, ok_bind]
  rfl

theorem keysValid_of_perm {table table' : List Relation} {index : Int}
    (hp : table'.Perm table) (h : KeysValid table index) : KeysValid table' index :=
  fun r hr => h r (hp.subset hr)

/-- From the guarantee of the sorting routine to the sorted-run invariant. -/
theorem sortedByKey_of_pairwise {index : Int} {table : List Relation}
    (hv : KeysValid table index)
    (hp : table.Pairwise (fun a b => lessByKey index b a = .ok false)) :
    SortedByKey index table := by
  unfold SortedByKey
  refine List.Pairwise.imp_of_mem ?_ hp
  intro a b ha hb hab
  rw [lessByKey_of_hasField (hv b hb) (hv a ha)] at hab
  have : decide (keyOf index b < keyOf index a) = false := by
    injection hab
  simp only [decide_eq_false_iff_not] at this
  omega

theorem sinkLeft_spec (index : Int) (x : Relation) (hx : HasField x index) :
    ∀ before : List Relation, KeysValid before index →
      before.Pairwise (fun a b => keyOf index b ≤ keyOf index a) →
      ∃ r, sinkLeft (lessByKey index) x before = .ok r ∧ r.Perm (x :: before) ∧
        r.Pairwise (fun a b => keyOf index b ≤ keyOf index a) := by
  intro before
  induction before with
  | nil =>
    intro _ _
    exact ⟨[x], rfl, List.Perm.refl _, List.pairwise_singleton _ _⟩
  | cons y before ih =>
    intro hv hs
    have hy : HasField y index := hv y (List.mem_cons_self _ _)
    have hv' : KeysValid before index := fun r hr => hv r (List.mem_cons_of_mem _ hr)
    have hs' := List.pairwise_cons.mp hs
    simp only [sinkLeft, lessByKey_of_hasField hx hy, ok_bind]
    by_cases hlt : keyOf index x < keyOf index y
    · obtain ⟨r, he, hp, hr⟩ := ih hv' hs'.2
      refine ⟨y :: r, ?_, ?_, ?_⟩
      · simp only [hlt, decide_True, if_true, he, ok_bind]
        rfl
      · exact (List.Perm.cons y hp).trans (List.Perm.swap x y before)
      · rw [List.pairwise_cons]
        refine ⟨?_, hr⟩
        intro z hz
        rcases List.mem_cons.mp (hp.subset hz) with rfl | hz
        · omega
        · exact hs'.1 z hz
    · refine ⟨x :: y :: before, ?_, List.Perm.refl _, ?_⟩
      · simp only [hlt, decide_False]
        rfl
      · rw [List.pairwise_cons]
        refine ⟨?_, hs⟩
        intro z hz
        rcases List.mem_cons.mp hz with rfl | hz
        · omega
        · have := hs'.1 z hz
          omega

theorem insertionSortLoop_spec (index : Int) :
    ∀ todo done : List Relation, KeysValid todo index → KeysValid done index →
      done.Pairwise (fun a b => keyOf index b ≤ keyOf index a) →
      ∃ sorted, insertionSortLoop (lessByKey index) todo done = .ok sorted ∧
        sorted.Perm (done.reverse ++ todo) ∧ SortedByKey index sorted := by
  intro todo
  induction todo with
  | nil =>
    intro done _ _ hs
    refine ⟨done.reverse, rfl, by simp, ?_⟩
    unfold SortedByKey
    rw [List.pairwise_reverse]
    exact hs
  | cons x todo ih =>
    intro done hvt hvd hs
    have hx : HasField x index := hvt x (List.mem_cons_self _ _)
    have hvt' : KeysValid todo index := fun r hr => hvt r (List.mem_cons_of_mem _ hr)
    obtain ⟨r, he, hp, hr⟩ := sinkLeft_spec index x hx done hvd hs
    have hvr : KeysValid r index := by
      intro z hz
      rcases List.mem_cons.mp (hp.subset hz) with rfl | hz
      · exact hx
      · exact hvd z hz
    obtain ⟨sorted, he2, hp2, hs2⟩ := ih r hvt' hvr hr
    refine ⟨sorted, ?_, ?_, hs2⟩
    · simp only [insertionSortLoop, he, ok_bind]
      exact he2
    · refine hp2.trans ?_
      have h1 : r.reverse.Perm (done.reverse ++ [x]) := by
        refine (List.reverse_perm r).trans (hp.trans ?_)
        refine (List.Perm.cons x (List.reverse_perm done).symm).trans ?_
        exact (List.perm_append_comm : ([x] ++ done.reverse).Perm (done.reverse ++ [x]))
      simpa using List.Perm.append_right todo h1

/-- The library insertion sort meets the guarantee the join relies on. -/
theorem insertionSortSlice_sortsByKey : SortsByKey insertionSortSlice := by
  intro index table hv
  have hv' : KeysValid table index := by
    intro r hr
    obtain ⟨v, hk⟩ := hv r hr r hr
    by_contra hc
    simp only [lessByKey, keyAt_of_not_hasField hc, error_bind] at hk
    cases hk
  obtain ⟨sorted, he, hp, hs⟩ :=
    insertionSortLoop_spec index table [] hv' (fun r hr => by cases hr) List.Pairwise.nil
  refine ⟨sorted, he, by simpa using hp, ?_⟩
  have hvs : KeysValid sorted index := keysValid_of_perm (by simpa using hp) hv'
  refine List.Pairwise.imp_of_mem ?_ hs
  intro a b ha hb hab
  rw [lessByKey_of_hasField (hvs b hb) (hvs a ha)]
  have : ¬ keyOf index b < keyOf index a := by omega
  simp [this]

/-! ## SortMergeJoin as a whole -/

/-- With a sorting routine that keeps its promise and key indices valid for
every row, `SortMergeJoin` returns with a nil error; the output holds, as a
multiset, the rows of the nested-loop join, and the two slices end up as sorted
rearrangements of what they held. -/
theorem sortMergeJoin_spec (sortSlice : SliceSorter) (hs : SortsByKey sortSlice)
    (table1 table2 : List Relation) (index1 index2 : Int)
    (h1 : KeysValid table1 index1) (h2 : KeysValid table2 index2) :
    ∃ out, SortMergeJoin sortSlice table1 table2 index1 index2 = .ok out ∧
      out.err = none ∧
      out.outputTable.Perm (nestedLoopJoin table1 index1 index2 table2) ∧
      out.table1.Perm table1 ∧ out.table2.Perm table2 ∧
      SortedByKey index1 out.table1 ∧ SortedByKey index2 out.table2 := by
  obtain ⟨s1, he1, hp1, hs1⟩ :=
    hs index1 table1 (fun a ha b hb => ⟨_, lessByKey_of_hasField (h1 a ha) (h1 b hb)⟩)
  obtain ⟨s2, he2, hp2, hs2⟩ :=
    hs index2 table2 (fun a ha b hb => ⟨_, lessByKey_of_hasField (h2 a ha) (h2 b hb)⟩)
  have hv1 := keysValid_of_perm hp1 h1
  have hv2 := keysValid_of_perm hp2 h2
  have hsorted1 := sortedByKey_of_pairwise hv1 hs1
  have hsorted2 := sortedByKey_of_pairwise hv2 hs2
  obtain ⟨res, hm, hperm⟩ := mergeLoop_spec s1 s2 index1 index2 hv1 hv2 hsorted1 hsorted2
    (s1.length + s2.length) 0 0 [] (by omega)
  refine ⟨⟨res, none, s1, s2⟩, ?_, rfl, ?_, hp1, hp2, hsorted1, hsorted2⟩
  · simp only [SortMergeJoin, he1, he2, ok_bind, hm, List.nil_append]
    rfl
  · simpa using hperm.trans (nestedLoopJoin_perm index1 index2 hp1 hp2)

/-! ## Counting the rows of one key group -/

theorem keyAt_concatRow {b : Relation} {index1 : Int} (hb : HasField b index1) (q : Relation) :
    keyAt (concatRow b q) index1 = keyAt b index1 := by
  obtain ⟨h0, h1⟩ := hb
  unfold keyAt sliceAt concatRow
  simp only [if_neg (not_lt.mpr h0)]
  rw [List.getElem?_append_left h1]

theorem keyAt_eq_of_sameKey {index1 index2 : Int} {b q : Relation}
    (h : sameKey index1 index2 b q = true) : keyAt b index1 = keyAt q index2 := by
  unfold sameKey at h
  cases hb : keyAt b index1 with
  | error e => rw [hb] at h; cases h
  | ok x =>
    cases hq : keyAt q index2 with
    | error e => rw [hb, hq] at h; cases h
    | ok y =>
      rw [hb, hq] at h
      have : x = y := by simpa using h
      rw [this]

theorem isJoinedRow_of_mem {table1 table2 : List Relation} {index1 index2 : Int}
    {row : Relation} (h : row ∈ nestedLoopJoin table1 index1 index2 table2) :
    IsJoinedRow table1 table2 index1 index2 row := by
  obtain ⟨b, hb, q, hq, hs, rfl⟩ := mem_nestedLoopJoin.mp h
  exact ⟨b, hb, q, hq, keyAt_eq_of_sameKey hs, rfl, by simp [concatRow], by simp [concatRow]⟩

theorem nestedLoopJoin_eq_nil_of_no_match {table1 table2 : List Relation} {index1 index2 : Int}
    (hno : ∀ a ∈ table1, ∀ b ∈ table2, keyAt a index1 ≠ keyAt b index2) :
    nestedLoopJoin table1 index1 index2 table2 = [] := by
  rw [List.eq_nil_iff_forall_not_mem]
  intro row hrow
  obtain ⟨b, hb, q, hq, hs, _⟩ := mem_nestedLoopJoin.mp hrow
  exact hno b hb q hq (keyAt_eq_of_sameKey hs)

theorem nestedLoopJoin_single {a b : Relation} {index1 index2 : Int}
    (ha : HasField a index1) (hb : HasField b index2) (h : keyAt a index1 = keyAt b index2) :
    nestedLoopJoin [a] index1 index2 [b] = [concatRow a b] := by
  have hs : sameKey index1 index2 a b = true := by
    rw [sameKey_eq_decide ha hb]
    rw [keyAt_of_hasField ha, keyAt_of_hasField hb] at h
    injection h with h
    simp [h]
  simp [nestedLoopJoin, matchesOf, hs]

theorem keysValid_nil (index : Int) : KeysValid [] index :=
  fun _ hr => by cases hr

/-! ## One row for each matching pair -/

/-- In the nested-loop join a row occurs once for each pair of a build row and
a probe row that have equal keys and concatenate to it. -/
theorem count_nestedLoopJoin (index1 index2 : Int) (row : Relation)
    (probe : List Relation) :
    ∀ build : List Relation,
      (nestedLoopJoin build index1 index2 probe).count row
        = (List.product build probe).countP (contributes index1 index2 row) := by
  intro build
  induction build with
  | nil =>
    have hnil : List.product ([] : List Relation) probe = [] := List.nil_product probe
    simp [nestedLoopJoin_nil_build, hnil]
  | cons a build ih =>
    have hcons : List.product (a :: build) probe
        = probe.map (fun q => (a, q)) ++ List.product build probe :=
      List.product_cons a build probe
    rw [(nestedLoopJoin_cons_build a build index1 index2 probe).count_eq row,
      List.count_append, ih, hcons, List.countP_append]
    congr 1
    rw [List.count_eq_countP, List.countP_map, List.countP_map, List.countP_filter]
    apply List.countP_congr
    intro q _
    simp [contributes, Bool.and_comm]

/-! ## The relation store and `parseLine` -/

theorem Store.lookup_of_set (m : Store) (k k' : GoString) (v : List Relation) :
    (m.set k v).lookup k' = if k = k' then some v else m.lookup k' := by
  induction m with
  | nil => simp [Store.set, Store.lookup]
  | cons p rest ih =>
    obtain ⟨k0, v0⟩ := p
    by_cases h0 : k0 = k
    · subst h0
      by_cases h1 : k0 = k' <;> simp [Store.set, Store.lookup, h1]
    · by_cases h1 : k0 = k'
      · subst h1
        have : ¬ k = k0 := fun h => h0 h.symm
        simp [Store.set, Store.lookup, h0, this]
      · simp [Store.set, Store.lookup, h0, h1, ih]

/-- A line of two bytes or more that does not split into three fields leaves
the store as it was. -/
theorem parseLine_discards (line : GoString) (hashMap : Store) (hlen : 2 ≤ line.length)
    (hsplit : (splitTab (line.take (line.length - 2))).length ≠ 3) :
    parseLine line hashMap = .ok hashMap := by
  unfold parseLine
  have h0 : ¬ ((line.length : Int) - 2 < 0) := by omega
  rw [if_neg h0]
  split
  · rename_i heq
    rw [heq] at hsplit
    exact absurd rfl hsplit
  · rfl

theorem parseLine_of_three_fields (line : GoString) (hashMap : Store)
    (subject property object : GoString)
    (hsplit : splitTab (line.take (line.length - 2)) = [subject, property, object]) :
    parseLine line hashMap = .ok (hashMap.set property
      (hashMap.get property ++ [⟨[hash subject, hash object]⟩])) := by
  have hlen : 2 ≤ line.length := by
    by_contra hc
    have hz : line.length - 2 = 0 := by omega
    rw [hz, List.take_zero] at hsplit
    simp [splitTab] at hsplit
  unfold parseLine
  have h0 : ¬ ((line.length : Int) - 2 < 0) := by omega
  rw [if_neg h0, hsplit]

/-! ## Sorting slices with a row that has no key field -/

theorem lessByKey_error_left {index : Int} {a : Relation} (ha : ¬ HasField a index)
    (b : Relation) : lessByKey index a b = .error .indexOutOfRange := by
  simp only [lessByKey, keyAt_of_not_hasField ha, error_bind]

theorem lessByKey_error_right {index : Int} {a b : Relation} (ha : HasField a index)
    (hb : ¬ HasField b index) : lessByKey index a b = .error .indexOutOfRange := by
  simp only [lessByKey, keyAt_of_hasField ha, keyAt_of_not_hasField hb, ok_bind, error_bind]

theorem sinkLeft_error {index : Int} {x y : Relation} (before : List Relation)
    (h : ¬ HasField x index ∨ ¬ HasField y index) :
    sinkLeft (lessByKey index) x (y :: before) = .error .indexOutOfRange := by
  have hl : lessByKey index x y = .error .indexOutOfRange := by
    by_cases hx : HasField x index
    · rcases h with h | h
      · exact absurd hx h
      · exact lessByKey_error_right hx h
    · exact lessByKey_error_left hx y
  simp only [sinkLeft, hl, error_bind]

theorem sinkLeft_ok (index : Int) (x : Relation) (hx : HasField x index) :
    ∀ before : List Relation, KeysValid before index →
      ∃ r, sinkLeft (lessByKey index) x before = .ok r ∧ r.Perm (x :: before) := by
  intro before
  induction before with
  | nil => intro _; exact ⟨[x], rfl, List.Perm.refl _⟩
  | cons y before ih =>
    intro hv
    have hy : HasField y index := hv y (List.mem_cons_self _ _)
    have hv' : KeysValid before index := fun r hr => hv r (List.mem_cons_of_mem _ hr)
    simp only [sinkLeft, lessByKey_of_hasField hx hy, ok_bind]
    by_cases hlt : keyOf index x < keyOf index y
    · obtain ⟨r, he, hp⟩ := ih hv'
      refine ⟨y :: r, ?_, (List.Perm.cons y hp).trans (List.Perm.swap x y before)⟩
      simp only [hlt, decide_True, if_true, he, ok_bind]
      rfl
    · refine ⟨x :: y :: before, ?_, List.Perm.refl _⟩
      simp only [hlt, decide_False]
      rfl

theorem insertionSortLoop_error (index : Int) :
    ∀ todo done : List Relation, done ≠ [] → KeysValid done index → ¬ KeysValid todo index →
      insertionSortLoop (lessByKey index) todo done = .error .indexOutOfRange := by
  intro todo
  induction todo with
  | nil => intro done _ _ h; exact absurd (keysValid_nil index) h
  | cons x todo ih =>
    intro done hne hvd hbad
    obtain ⟨y, before, rfl⟩ := List.exists_cons_of_ne_nil hne
    by_cases hx : HasField x index
    · obtain ⟨r, he, hp⟩ := sinkLeft_ok index x hx (y :: before) hvd
      have hvr : KeysValid r index := by
        intro z hz
        rcases List.mem_cons.mp (hp.subset hz) with rfl | hz
        · exact hx
        · exact hvd z hz
      have hrne : r ≠ [] := by
        intro hr
        rw [hr] at hp
        exact absurd hp.length_eq (by simp)
      have hbad' : ¬ KeysValid todo index := by
        intro hv
        apply hbad
        intro z hz
        rcases List.mem_cons.mp hz with rfl | hz
        · exact hx
        · exact hv z hz
      simp only [insertionSortLoop, he, ok_bind]
      exact ih r hrne hvr hbad'
    · simp only [insertionSortLoop, sinkLeft_error before (Or.inl hx), error_bind]

/-- The library insertion sort calls the comparator on every row of a slice of
two or more rows and on none of a shorter slice. -/
theorem insertionSortSlice_comparesEveryRow : ComparesEveryRow insertionSortSlice := by
  intro index table
  constructor
  · intro hlen
    match table, hlen with
    | [], _ => rfl
    | [x], _ => rfl
    | _ :: _ :: _, h => exact absurd h (by simp)
  · intro hlen hbad
    match table, hlen, hbad with
    | [], h, _ => exact absurd h (by simp)
    | [_], h, _ => exact absurd h (by simp)
    | x0 :: x1 :: rest, _, hbad =>
      have hstep : insertionSortSlice (lessByKey index) (x0 :: x1 :: rest)
          = insertionSortLoop (lessByKey index) (x1 :: rest) [x0] := rfl
      rw [hstep]
      by_cases h0 : HasField x0 index
      · apply insertionSortLoop_error index (x1 :: rest) [x0] (by simp)
        · intro z hz
          rcases List.mem_singleton.mp hz with rfl
          exact h0
        · intro hv
          apply hbad
          intro z hz
          rcases List.mem_cons.mp hz with rfl | hz
          · exact h0
          · exact hv z hz
      · have hnext : insertionSortLoop (lessByKey index) (x1 :: rest) [x0]
            = (sinkLeft (lessByKey index) x1 [x0] >>= fun done =>
                insertionSortLoop (lessByKey index) rest done) := rfl
        rw [hnext, sinkLeft_error [] (Or.inr h0), error_bind]

/-! ## One iteration of the merge loop -/

theorem keyOf_concatRow {b : Relation} {index1 : Int} (hb : HasField b index1) (q : Relation) :
    keyOf index1 (concatRow b q) = keyOf index1 b := by
  unfold keyOf
  rw [keyAt_concatRow hb q]

/-- With valid keys, an iteration of the merge loop moves `i`, `j` or both one
step forward, and every row it adds to the output has the key of `table1[i]`. -/
theorem mergeLoop_step (table1 table2 : List Relation) (index1 index2 : Int)
    (h1 : KeysValid table1 index1) (h2 : KeysValid table2 index2)
    (i j : Nat) (hi : i < table1.length) (hj : j < table2.length) :
    ∃ (i' j' : Nat) (emitted : List Relation),
      ((i' = i + 1 ∧ j' = j) ∨ (i' = i ∧ j' = j + 1) ∨ (i' = i + 1 ∧ j' = j + 1)) ∧
      (∀ row ∈ emitted, keyOf index1 row = keyOf index1 table1[i]) ∧
      ∀ (fuel : Nat) (out : List Relation),
        mergeLoop table1 table2 index1 index2 (fuel + 1) i j out
          = mergeLoop table1 table2 index1 index2 fuel i' j' (out ++ emitted) := by
  have ha : HasField table1[i] index1 := h1 _ (List.getElem_mem hi)
  have hb : HasField table2[j] index2 := h2 _ (List.getElem_mem hj)
  by_cases hlt : keyOf index1 table1[i] < keyOf index2 table2[j]
  · refine ⟨i + 1, j, [], Or.inl ⟨rfl, rfl⟩, (fun _ h => by cases h), ?_⟩
    intro fuel out
    simp only [mergeLoop, if_pos (And.intro hi hj), rowAt_of_lt hi, rowAt_of_lt hj,
      keyAt_of_hasField ha, keyAt_of_hasField hb, ok_bind, if_pos hlt, List.append_nil]
  · by_cases hgt : keyOf index1 table1[i] > keyOf index2 table2[j]
    · refine ⟨i, j + 1, [], Or.inr (Or.inl ⟨rfl, rfl⟩), (fun _ h => by cases h), ?_⟩
      intro fuel out
      simp only [mergeLoop, if_pos (And.intro hi hj), rowAt_of_lt hi, rowAt_of_lt hj,
        keyAt_of_hasField ha, keyAt_of_hasField hb, ok_bind, if_neg hlt, if_pos hgt,
        List.append_nil]
    · have heq : keyOf index1 table1[i] = keyOf index2 table2[j] := by omega
      refine ⟨i + 1, j + 1,
        [concatRow table1[i] table2[j]] ++
          ((table2.drop (j + 1)).takeWhile
            (fun b => decide (keyOf index2 b = keyOf index1 table1[i]))).map
              (fun b => concatRow table1[i] b) ++
          ((table1.drop (i + 1)).takeWhile
            (fun a => decide (keyOf index1 a = keyOf index2 table2[j]))).map
              (fun a => concatRow a table2[j]),
        Or.inr (Or.inr ⟨rfl, rfl⟩), ?_, ?_⟩
      · intro row hrow
        simp only [List.mem_append, List.mem_singleton, List.mem_map] at hrow
        rcases hrow with (rfl | ⟨b, _, rfl⟩) | ⟨a, hmem, rfl⟩
        · exact keyOf_concatRow ha _
        · exact keyOf_concatRow ha _
        · have hva : HasField a index1 :=
            h1 a (List.mem_of_mem_drop ((List.takeWhile_sublist _).subset hmem))
          have hk := List.mem_takeWhile_imp hmem
          simp only [decide_eq_true_eq] at hk
          rw [keyOf_concatRow hva, hk, heq]
      · intro fuel out
        simp only [mergeLoop, if_pos (And.intro hi hj), rowAt_of_lt hi, rowAt_of_lt hj,
          keyAt_of_hasField ha, keyAt_of_hasField hb, ok_bind, if_neg hlt, if_neg hgt]
        rw [scanJ_eq table1 table2 index1 index2 i hi ha h2 table2.length (j + 1) _ (by omega)]
        simp only [ok_bind]
        rw [scanI_eq table1 table2 index1 index2 j hj hb h1 table1.length (i + 1) _ (by omega)]
        simp only [ok_bind, List.append_assoc]

theorem mergeLoop_done (table1 table2 : List Relation) (index1 index2 : Int)
    (fuel i j : Nat) (out : List Relation)
    (h : ¬ (i < table1.length ∧ j < table2.length)) :
    mergeLoop table1 table2 index1 index2 fuel i j out = .ok out := by
  cases fuel <;> simp [mergeLoop, h]

/-- With valid keys the merge loop returns once its budget covers the distance
of the two cursors from the ends of their tables. -/
theorem mergeLoop_returns (table1 table2 : List Relation) (index1 index2 : Int)
    (h1 : KeysValid table1 index1) (h2 : KeysValid table2 index2) :
    ∀ (fuel i j : Nat) (out : List Relation),
      (table1.length - i) + (table2.length - j) ≤ fuel →
      ∃ res, mergeLoop table1 table2 index1 index2 fuel i j out = .ok res := by
  intro fuel
  induction fuel with
  | zero =>
    intro i j out hf
    exact ⟨out, mergeLoop_done table1 table2 index1 index2 0 i j out (by omega)⟩
  | succ fuel ih =>
    intro i j out hf
    by_cases hc : i < table1.length ∧ j < table2.length
    · obtain ⟨i', j', emitted, hmove, _, hstep⟩ :=
        mergeLoop_step table1 table2 index1 index2 h1 h2 i j hc.1 hc.2
      rw [hstep fuel out]
      apply ih
      rcases hmove with ⟨rfl, rfl⟩ | ⟨rfl, rfl⟩ | ⟨rfl, rfl⟩ <;> omega
    · exact ⟨out, mergeLoop_done table1 table2 index1 index2 _ i j out hc⟩

/-- The three ways a sort of one table can go. -/
theorem sort_outcome {sortSlice : SliceSorter} (hs : SortsByKey sortSlice)
    (hc : ComparesEveryRow sortSlice) (index : Int) (table : List Relation) :
    (sortSlice (lessByKey index) table = .error .indexOutOfRange ∧
      ¬ KeysValid table index ∧ 2 ≤ table.length) ∨
    (∃ s, sortSlice (lessByKey index) table = .ok s ∧
      ((KeysValid table index ∧ s.Perm table) ∨ (s = table ∧ table.length < 2))) := by
  by_cases hv : KeysValid table index
  · obtain ⟨s, he, hp, _⟩ :=
      hs index table (fun a ha b hb => ⟨_, lessByKey_of_hasField (hv a ha) (hv b hb)⟩)
    exact Or.inr ⟨s, he, Or.inl ⟨hv, hp⟩⟩
  · by_cases hlen : table.length < 2
    · exact Or.inr ⟨table, (hc index table).1 hlen, Or.inr ⟨rfl, hlen⟩⟩
    · exact Or.inl ⟨(hc index table).2 (by omega) hv, hv, by omega⟩

theorem not_hasField_head {table : List Relation} {index : Int} (hlen : table.length < 2)
    (hbad : ¬ KeysValid table index) (h0 : 0 < table.length) : ¬ HasField table[0] index := by
  match table, hlen, hbad, h0 with
  | [], _, _, h0 => exact absurd h0 (by simp)
  | [r], _, hbad, _ =>
    intro hr
    apply hbad
    intro z hz
    rcases List.mem_singleton.mp hz with rfl
    exact hr
  | _ :: _ :: _, hlen, _, _ => exact absurd hlen (by simp)

/-- The first iteration of the merge loop reads the key of the first row of
each table: when one of them is missing the call panics. -/
theorem mergeLoop_first_read_error (table1 table2 : List Relation) (index1 index2 : Int)
    (fuel : Nat) (h1 : 0 < table1.length) (h2 : 0 < table2.length)
    (hbad : ¬ HasField table1[0] index1 ∨ ¬ HasField table2[0] index2) :
    mergeLoop table1 table2 index1 index2 (fuel + 1) 0 0 [] = .error .indexOutOfRange := by
  by_cases ha : HasField table1[0] index1
  · have hb : ¬ HasField table2[0] index2 := by
      rcases hbad with h | h
      · exact absurd ha h
      · exact h
    simp only [mergeLoop, if_pos (And.intro h1 h2), rowAt_of_lt h1, rowAt_of_lt h2,
      keyAt_of_hasField ha, keyAt_of_not_hasField hb, ok_bind, error_bind]
  · simp only [mergeLoop, if_pos (And.intro h1 h2), rowAt_of_lt h1,
      keyAt_of_not_hasField ha, ok_bind, error_bind]

theorem sortMergeJoin_error_of_read (sortSlice : SliceSorter) (hs : SortsByKey sortSlice)
    (hc : ComparesEveryRow sortSlice) (table1 table2 : List Relation) (index1 index2 : Int)
    (hbad : ¬ KeysValid table1 index1 ∨ ¬ KeysValid table2 index2)
    (hread : (table1 ≠ [] ∧ table2 ≠ []) ∨ (¬ KeysValid table1 index1 ∧ 2 ≤ table1.length) ∨
      (¬ KeysValid table2 index2 ∧ 2 ≤ table2.length)) :
    SortMergeJoin sortSlice table1 table2 index1 index2 = .error .indexOutOfRange := by
  rcases sort_outcome hs hc index1 table1 with ⟨he1, _, _⟩ | ⟨s1, he1, hcase1⟩
  · simp only [SortMergeJoin, he1, error_bind]
  · rcases sort_outcome hs hc index2 table2 with ⟨he2, _, _⟩ | ⟨s2, he2, hcase2⟩
    · simp only [SortMergeJoin, he1, he2, ok_bind, error_bind]
    · have hlen1 : s1.length = table1.length := by
        rcases hcase1 with ⟨_, hp⟩ | ⟨rfl, _⟩
        · exact hp.length_eq
        · rfl
      have hlen2 : s2.length = table2.length := by
        rcases hcase2 with ⟨_, hp⟩ | ⟨rfl, _⟩
        · exact hp.length_eq
        · rfl
      have hne : table1 ≠ [] ∧ table2 ≠ [] := by
        rcases hread with h | ⟨hb, hl⟩ | ⟨hb, hl⟩
        · exact h
        · rcases hcase1 with ⟨hv, _⟩ | ⟨_, hl'⟩
          · exact absurd hv hb
          · omega
        · rcases hcase2 with ⟨hv, _⟩ | ⟨_, hl'⟩
          · exact absurd hv hb
          · omega
      have h01 : 0 < s1.length := by
        rw [hlen1]; exact List.length_pos.mpr hne.1
      have h02 : 0 < s2.length := by
        rw [hlen2]; exact List.length_pos.mpr hne.2
      have hrow : ¬ HasField s1[0] index1 ∨ ¬ HasField s2[0] index2 := by
        rcases hcase1 with ⟨hv1, _⟩ | ⟨rfl, hl1⟩
        · rcases hcase2 with ⟨hv2, _⟩ | ⟨rfl, hl2⟩
          · rcases hbad with h | h
            · exact absurd hv1 h
            · exact absurd hv2 h
          · have hb2 : ¬ KeysValid s2 index2 := by
              rcases hbad with h | h
              · exact absurd hv1 h
              · exact h
            exact Or.inr (not_hasField_head hl2 hb2 h02)
        · by_cases hv1 : KeysValid s1 index1
          · rcases hcase2 with ⟨hv2, _⟩ | ⟨rfl, hl2⟩
            · rcases hbad with h | h
              · exact absurd hv1 h
              · exact absurd hv2 h
            · have hb2 : ¬ KeysValid s2 index2 := by
                rcases hbad with h | h
                · exact absurd hv1 h
                · exact h
              exact Or.inr (not_hasField_head hl2 hb2 h02)
          · exact Or.inl (not_hasField_head hl1 hv1 h01)
      obtain ⟨n, hn⟩ : ∃ n, s1.length + s2.length = n + 1 := ⟨s1.length + s2.length - 1, by omega⟩
      simp only [SortMergeJoin, he1, he2, ok_bind, hn]
      rw [mergeLoop_first_read_error s1 s2 index1 index2 n h01 h02 hrow]
      rfl

/-! ## Ascending order, in terms of the fields read -/

theorem measureTime_first_error (joinFunc : JoinFunc) (tables : Store) (elapsed : String)
    (rows : List Relation) (e : String)
    (h : joinFunc (tables.get (asciiBytes "wsdbm:friendOf"))
      (tables.get (asciiBytes "wsdbm:follows")) 0 1 = .ok (rows, some e)) :
    measureTimeSmallDataSet joinFunc tables elapsed = .ok "" := by
  unfold measureTimeSmallDataSet
  rw [h]
  simp

theorem measureTime_second_error (joinFunc : JoinFunc) (tables : Store) (elapsed : String)
    (rows rows' : List Relation) (e : String)
    (h1 : joinFunc (tables.get (asciiBytes "wsdbm:friendOf"))
      (tables.get (asciiBytes "wsdbm:follows")) 0 1 = .ok (rows, none))
    (h2 : joinFunc (tables.get (asciiBytes "wsdbm:likes")) rows 0 1 = .ok (rows', some e)) :
    measureTimeSmallDataSet joinFunc tables elapsed = .ok "err" := by
  unfold measureTimeSmallDataSet
  rw [h1]
  simp only [ne_eq, not_true_eq_false, if_false]
  rw [h2]
  simp

/-- Whatever the third join returns next to its rows, once the first two joins
have returned a nil error the step reports the elapsed time. -/
theorem measureTime_third_ignored (joinFunc : JoinFunc) (tables : Store) (elapsed : String)
    (rows rows' rows'' : List Relation) (err : Option String)
    (h1 : joinFunc (tables.get (asciiBytes "wsdbm:friendOf"))
      (tables.get (asciiBytes "wsdbm:follows")) 0 1 = .ok (rows, none))
    (h2 : joinFunc (tables.get (asciiBytes "wsdbm:likes")) rows 0 1 = .ok (rows', none))
    (h3 : joinFunc (tables.get (asciiBytes "rev:hasReview")) rows' 0 1 = .ok (rows'', err)) :
    measureTimeSmallDataSet joinFunc tables elapsed = .ok elapsed := by
  unfold measureTimeSmallDataSet
  rw [h1]
  simp only [ne_eq, not_true_eq_false, if_false]
  rw [h2]
  simp only [ne_eq, not_true_eq_false, if_false]
  rw [h3]

/-! ## Rows in memory -/

theorem cellsOf_extend {mem : Storage.Memory} {row : Storage.Row} (extra : Storage.Memory)
    (h : row.arr < mem.length) :
    Storage.cellsOf (mem ++ extra) row = Storage.cellsOf mem row := by
  unfold Storage.cellsOf
  exact List.getD_append mem extra [] row.arr h

theorem fields_extend {mem : Storage.Memory} {row : Storage.Row} (extra : Storage.Memory)
    (h : row.arr < mem.length) :
    Storage.fields (mem ++ extra) row = Storage.fields mem row := by
  unfold Storage.fields
  rw [cellsOf_extend extra h]

theorem capOf_extend {mem : Storage.Memory} {row : Storage.Row} (extra : Storage.Memory)
    (h : row.arr < mem.length) :
    Storage.capOf (mem ++ extra) row = Storage.capOf mem row := by
  unfold Storage.capOf
  rw [cellsOf_extend extra h]

theorem wellFormed_extend {mem : Storage.Memory} {row : Storage.Row} (extra : Storage.Memory)
    (h : Storage.WellFormed mem row) : Storage.WellFormed (mem ++ extra) row := by
  refine ⟨?_, ?_⟩
  · rw [List.length_append]
    exact Nat.lt_add_right _ h.1
  · rw [cellsOf_extend extra h.1]
    exact h.2

theorem noSpare_extend {mem : Storage.Memory} {row : Storage.Row} (extra : Storage.Memory)
    (hw : Storage.WellFormed mem row) (h : Storage.NoSpare mem row) :
    Storage.NoSpare (mem ++ extra) row := by
  unfold Storage.NoSpare
  rw [capOf_extend extra hw.1]
  exact h

theorem readTable_extend {mem : Storage.Memory} (extra : Storage.Memory) :
    ∀ {table : List Storage.Row}, (∀ row ∈ table, Storage.WellFormed mem row) →
      Storage.readTable (mem ++ extra) table = Storage.readTable mem table := by
  intro table h
  unfold Storage.readTable
  apply List.map_congr_left
  intro row hrow
  rw [fields_extend extra (h row hrow).1]

theorem length_fields {mem : Storage.Memory} {row : Storage.Row}
    (h : Storage.WellFormed mem row) : (Storage.fields mem row).length = row.len := by
  unfold Storage.fields
  rw [List.length_take, List.length_drop]
  have := h.2
  omega

theorem writeAt_nil (cells : List Nat) (pos : Nat) : Storage.writeAt cells pos [] = cells := by
  simp [Storage.writeAt]

theorem set_getElem_same {α : Type} :
    ∀ (l : List α) (i : Nat) (h : i < l.length), l.set i l[i] = l
  | [], _, h => absurd h (by simp)
  | _ :: _, 0, _ => rfl
  | a :: l, i + 1, h => by
    have ih := set_getElem_same l i (by simpa using h)
    simp only [List.set_cons_succ, List.getElem_cons_succ, ih]

theorem set_cellsOf_self {mem : Storage.Memory} {row : Storage.Row} (h : row.arr < mem.length) :
    mem.set row.arr (Storage.cellsOf mem row) = mem := by
  unfold Storage.cellsOf
  rw [List.getD_eq_getElem mem [] h]
  exact set_getElem_same mem row.arr h

theorem fields_new_array (mem : Storage.Memory) (cells : List Nat) (n : Nat) :
    Storage.fields (mem ++ [cells]) ⟨mem.length, 0, n⟩ = cells.take n := by
  simp [Storage.fields, Storage.cellsOf]

/-- An `append` to a row without spare capacity leaves every array as it is,
allocates at most one new array, and returns a row that reads as the fields of
the left row followed by those of the right row. -/
theorem appendValues_fresh (grow : Nat → Nat → Nat) {mem : Storage.Memory}
    {l r : Storage.Row} (hl : Storage.WellFormed mem l) (hr : Storage.WellFormed mem r)
    (hn : Storage.NoSpare mem l) :
    ∃ extra, (Storage.appendValues grow mem l r).1 = mem ++ extra ∧
      Storage.WellFormed (mem ++ extra) (Storage.appendValues grow mem l r).2 ∧
      Storage.fields (mem ++ extra) (Storage.appendValues grow mem l r).2
        = Storage.fields mem l ++ Storage.fields mem r := by
  unfold Storage.NoSpare at hn
  by_cases hc : l.len + r.len ≤ Storage.capOf mem l
  · have hr0 : r.len = 0 := by omega
    have hfr : Storage.fields mem r = [] := by
      unfold Storage.fields
      rw [hr0, List.take_zero]
    have hres : Storage.appendValues grow mem l r = (mem, ⟨l.arr, l.off, l.len + r.len⟩) := by
      unfold Storage.appendValues
      simp only [if_pos hc, hfr, writeAt_nil, set_cellsOf_self hl.1]
    refine ⟨[], ?_, ?_, ?_⟩
    · rw [hres, List.append_nil]
    · rw [hres, List.append_nil]
      refine ⟨hl.1, ?_⟩
      have := hl.2
      simp only [Storage.cellsOf] at this ⊢
      omega
    · rw [hres, List.append_nil, hfr, List.append_nil]
      simp only [Storage.fields, Storage.cellsOf, hr0, Nat.add_zero]
  · have hres : Storage.appendValues grow mem l r
        = (mem ++ [Storage.fields mem l ++ Storage.fields mem r ++
            List.replicate (max (l.len + r.len) (grow (Storage.capOf mem l) (l.len + r.len))
              - (l.len + r.len)) 0], ⟨mem.length, 0, l.len + r.len⟩) := by
      unfold Storage.appendValues
      simp only [if_neg hc]
    have hcells : ∀ extra : List Nat, Storage.cellsOf (mem ++ [extra]) ⟨mem.length, 0, l.len + r.len⟩
        = extra := by
      intro extra
      simp [Storage.cellsOf]
    refine ⟨_, by rw [hres], ?_, ?_⟩
    · rw [hres]
      refine ⟨by simp, ?_⟩
      rw [hcells]
      simp only [List.length_append, length_fields hl, length_fields hr, List.length_replicate]
      omega
    · rw [hres]
      have hlen : (Storage.fields mem l ++ Storage.fields mem r).length = l.len + r.len := by
        rw [List.length_append, length_fields hl, length_fields hr]
      show Storage.fields (mem ++ [_]) ⟨mem.length, 0, l.len + r.len⟩ = _
      rw [fields_new_array]
      exact List.take_left' hlen

/-! ## Maps of rows, read in memory -/

theorem readTable_append (mem : Storage.Memory) (t u : List Storage.Row) :
    Storage.readTable mem (t ++ u) = Storage.readTable mem t ++ Storage.readTable mem u := by
  simp [Storage.readTable]

theorem readBuckets_lookup (mem : Storage.Memory) (k : Nat) :
    ∀ m : Storage.Buckets,
      (Storage.readBuckets mem m).lookup k = (m.lookup k).map (Storage.readTable mem) := by
  intro m
  induction m with
  | nil => rfl
  | cons p rest ih =>
    obtain ⟨k0, v0⟩ := p
    by_cases h : k0 = k
    · simp [Storage.readBuckets, GoMap.lookup, Storage.Buckets.lookup, h]
    · have ih' : GoMap.lookup (List.map (fun p => (p.1, Storage.readTable mem p.2)) rest) k
          = (Storage.Buckets.lookup rest k).map (Storage.readTable mem) := ih
      simp [Storage.readBuckets, GoMap.lookup, Storage.Buckets.lookup, h, ih']

theorem readBuckets_get (mem : Storage.Memory) (k : Nat) (m : Storage.Buckets) :
    (Storage.readBuckets mem m).get k = Storage.readTable mem (m.get k) := by
  unfold GoMap.get Storage.Buckets.get
  rw [readBuckets_lookup]
  cases m.lookup k <;> rfl

theorem readBuckets_set (mem : Storage.Memory) (k : Nat) (v : List Storage.Row) :
    ∀ m : Storage.Buckets,
      Storage.readBuckets mem (m.set k v)
        = (Storage.readBuckets mem m).set k (Storage.readTable mem v) := by
  intro m
  induction m with
  | nil => rfl
  | cons p rest ih =>
    obtain ⟨k0, v0⟩ := p
    by_cases h : k0 = k
    · simp [Storage.readBuckets, GoMap.set, Storage.Buckets.set, h]
    · have ih' : List.map (fun p => (p.1, Storage.readTable mem p.2)) (Storage.Buckets.set rest k v)
          = GoMap.set (List.map (fun p => (p.1, Storage.readTable mem p.2)) rest) k
              (Storage.readTable mem v) := ih
      simp [Storage.readBuckets, GoMap.set, Storage.Buckets.set, h, ih']

theorem readBuckets_extend {mem : Storage.Memory} (extra : Storage.Memory)
    {m : Storage.Buckets} (h : m.AllRows (Storage.WellFormed mem)) :
    Storage.readBuckets (mem ++ extra) m = Storage.readBuckets mem m := by
  unfold Storage.readBuckets
  apply List.map_congr_left
  intro p hp
  rw [readTable_extend extra (h p hp)]

theorem allRows_lookup {P : Storage.Row → Prop} {k : Nat} {v : List Storage.Row} :
    ∀ {m : Storage.Buckets}, m.AllRows P → m.lookup k = some v → ∀ row ∈ v, P row := by
  intro m
  induction m with
  | nil => intro _ h; cases h
  | cons p rest ih =>
    obtain ⟨k0, v0⟩ := p
    intro hall hlook
    by_cases h : k0 = k
    · simp only [Storage.Buckets.lookup, h, if_true] at hlook
      injection hlook with hlook
      subst hlook
      exact hall (k0, v0) (List.mem_cons_self _ _)
    · simp only [Storage.Buckets.lookup, h, if_false] at hlook
      exact ih (fun p hp => hall p (List.mem_cons_of_mem _ hp)) hlook

theorem allRows_get {P : Storage.Row → Prop} {m : Storage.Buckets} (h : m.AllRows P)
    (k : Nat) : ∀ row ∈ m.get k, P row := by
  unfold Storage.Buckets.get
  cases hl : m.lookup k with
  | none => intro row hrow; cases hrow
  | some v => exact allRows_lookup h hl

theorem allRows_set {P : Storage.Row → Prop} {k : Nat} {v : List Storage.Row}
    (hv : ∀ row ∈ v, P row) :
    ∀ {m : Storage.Buckets}, m.AllRows P → (m.set k v).AllRows P := by
  intro m
  induction m with
  | nil =>
    intro _ p hp
    rcases List.mem_singleton.mp hp with rfl
    exact hv
  | cons p rest ih =>
    obtain ⟨k0, v0⟩ := p
    intro hall
    by_cases h : k0 = k
    · simp only [Storage.Buckets.set, h, if_true]
      intro p hp
      rcases List.mem_cons.mp hp with rfl | hp
      · exact hv
      · exact hall p (List.mem_cons_of_mem _ hp)
    · simp only [Storage.Buckets.set, h, if_false]
      intro p hp
      rcases List.mem_cons.mp hp with rfl | hp
      · exact hall (k0, v0) (List.mem_cons_self _ _)
      · exact ih (fun p hp => hall p (List.mem_cons_of_mem _ hp)) p hp

theorem allRows_imp {P Q : Storage.Row → Prop} {m : Storage.Buckets}
    (h : ∀ row, P row → Q row) (hm : m.AllRows P) : m.AllRows Q :=
  fun p hp row hrow => h row (hm p hp row hrow)

/-! ## HashJoin on rows without spare capacity -/

theorem storage_keyAt_eq (mem : Storage.Memory) (row : Storage.Row) (index : Int) :
    Storage.keyAt mem row index = keyAt ⟨Storage.fields mem row⟩ index := rfl

theorem buildPhase_reads (mem : Storage.Memory) (index1 : Int) :
    ∀ (table : List Storage.Row) (m : Storage.Buckets),
      (Storage.buildPhase mem index1 table m).map (Storage.readBuckets mem)
        = buildPhase index1 (Storage.readTable mem table) (Storage.readBuckets mem m) := by
  intro table
  induction table with
  | nil => intro m; rfl
  | cons relation rest ih =>
    intro m
    have hv : buildPhase index1 (Storage.readTable mem (relation :: rest))
          (Storage.readBuckets mem m)
        = (keyAt ⟨Storage.fields mem relation⟩ index1 >>= fun key =>
            buildPhase index1 (Storage.readTable mem rest)
              ((Storage.readBuckets mem m).set key
                ((Storage.readBuckets mem m).get key ++ [⟨Storage.fields mem relation⟩]))) := rfl
    have hs : Storage.buildPhase mem index1 (relation :: rest) m
        = (Storage.keyAt mem relation index1 >>= fun key =>
            Storage.buildPhase mem index1 rest (m.set key (m.get key ++ [relation]))) := rfl
    rw [hv, hs, storage_keyAt_eq]
    cases keyAt ⟨Storage.fields mem relation⟩ index1 with
    | error e => rfl
    | ok key =>
      simp only [ok_bind]
      rw [ih, readBuckets_set, readTable_append, readBuckets_get]
      rfl

theorem buildPhase_allRows (mem : Storage.Memory) (index1 : Int) (P : Storage.Row → Prop) :
    ∀ (table : List Storage.Row) (m m' : Storage.Buckets), m.AllRows P →
      (∀ row ∈ table, P row) → Storage.buildPhase mem index1 table m = .ok m' →
      m'.AllRows P := by
  intro table
  induction table with
  | nil =>
    intro m m' hm _ h
    have : m = m' := Except.ok.inj h
    rw [← this]
    exact hm
  | cons relation rest ih =>
    intro m m' hm ht h
    have hs : Storage.buildPhase mem index1 (relation :: rest) m
        = (Storage.keyAt mem relation index1 >>= fun key =>
            Storage.buildPhase mem index1 rest (m.set key (m.get key ++ [relation]))) := rfl
    rw [hs] at h
    cases hk : Storage.keyAt mem relation index1 with
    | error e => rw [hk] at h; cases h
    | ok key =>
      rw [hk] at h
      simp only [ok_bind] at h
      refine ih _ m' ?_ (fun row hrow => ht row (List.mem_cons_of_mem _ hrow)) h
      apply allRows_set _ hm
      intro row hrow
      rcases List.mem_append.mp hrow with hrow | hrow
      · exact allRows_get hm key row hrow
      · rcases List.mem_singleton.mp hrow with rfl
        exact ht _ (List.mem_cons_self _ _)

theorem emitBucket_reads (grow : Nat → Nat → Nat) (relation : Storage.Row) :
    ∀ (val : List Storage.Row) (mem : Storage.Memory) (out : List Storage.Row),
      Storage.WellFormed mem relation →
      (∀ rel ∈ val, Storage.WellFormed mem rel ∧ Storage.NoSpare mem rel) →
      (∀ o ∈ out, Storage.WellFormed mem o) →
      ∃ extra, (Storage.emitBucket grow relation val mem out).1 = mem ++ extra ∧
        (∀ o ∈ (Storage.emitBucket grow relation val mem out).2,
          Storage.WellFormed (mem ++ extra) o) ∧
        Storage.readTable (mem ++ extra) (Storage.emitBucket grow relation val mem out).2
          = emitBucket ⟨Storage.fields mem relation⟩ (Storage.readTable mem val)
              (Storage.readTable mem out) := by
  intro val
  induction val with
  | nil =>
    intro mem out _ _ ho
    exact ⟨[], by simp [Storage.emitBucket], by simpa [Storage.emitBucket] using ho,
      by simp [Storage.emitBucket, emitBucket, Storage.readTable]⟩
  | cons rel val ih =>
    intro mem out hq hval ho
    obtain ⟨hwrel, hnrel⟩ := hval rel (List.mem_cons_self _ _)
    obtain ⟨e1, hm1, hw1, hf1⟩ := appendValues_fresh grow hwrel hq hnrel
    have hstep : Storage.emitBucket grow relation (rel :: val) mem out
        = Storage.emitBucket grow relation val (Storage.appendValues grow mem rel relation).1
            (out ++ [(Storage.appendValues grow mem rel relation).2]) := rfl
    rw [hstep, hm1]
    have hq1 : Storage.WellFormed (mem ++ e1) relation := wellFormed_extend e1 hq
    have hval1 : ∀ r ∈ val, Storage.WellFormed (mem ++ e1) r ∧ Storage.NoSpare (mem ++ e1) r :=
      fun r hr =>
        have h := hval r (List.mem_cons_of_mem _ hr)
        ⟨wellFormed_extend e1 h.1, noSpare_extend e1 h.1 h.2⟩
    have ho1 : ∀ o ∈ out ++ [(Storage.appendValues grow mem rel relation).2],
        Storage.WellFormed (mem ++ e1) o := by
      intro o hmem
      rcases List.mem_append.mp hmem with hmem | hmem
      · exact wellFormed_extend e1 (ho o hmem)
      · rcases List.mem_singleton.mp hmem with rfl
        exact hw1
    obtain ⟨e2, hm2, hw2, hf2⟩ := ih (mem ++ e1) _ hq1 hval1 ho1
    refine ⟨e1 ++ e2, by rw [hm2, List.append_assoc], ?_, ?_⟩
    · rw [← List.append_assoc]; exact hw2
    · rw [← List.append_assoc, hf2, fields_extend e1 hq.1,
        readTable_extend e1 (fun r hr => (hval r (List.mem_cons_of_mem _ hr)).1),
        readTable_append, readTable_extend e1 ho]
      have hnew : Storage.readTable (mem ++ e1) [(Storage.appendValues grow mem rel relation).2]
          = [concatRow ⟨Storage.fields mem rel⟩ ⟨Storage.fields mem relation⟩] := by
        simp only [Storage.readTable, List.map_cons, List.map_nil, hf1, concatRow]
      rw [hnew]
      rfl

/-- On build rows without spare capacity the join phase, read in the memory it
leaves, is the join phase on field sequences; the memory only gets new arrays. -/
theorem probePhase_reads (grow : Nat → Nat → Nat) (hashMap : Storage.Buckets) (index2 : Int) :
    ∀ (rest : List Storage.Row) (mem : Storage.Memory) (out : List Storage.Row),
      hashMap.AllRows (fun r => Storage.WellFormed mem r ∧ Storage.NoSpare mem r) →
      (∀ q ∈ rest, Storage.WellFormed mem q) →
      (∀ o ∈ out, Storage.WellFormed mem o) →
      (Storage.probePhase grow hashMap index2 rest mem out).map
          (fun p => Storage.readTable p.1 p.2)
        = probePhase (Storage.readBuckets mem hashMap) index2 (Storage.readTable mem rest)
            (Storage.readTable mem out) ∧
      ∀ mem' out', Storage.probePhase grow hashMap index2 rest mem out = .ok (mem', out') →
        ∃ extra, mem' = mem ++ extra := by
  intro rest
  induction rest with
  | nil =>
    intro mem out _ _ _
    refine ⟨rfl, ?_⟩
    intro mem' out' h
    have h' : (mem, out) = (mem', out') := Except.ok.inj h
    injection h' with h1 _
    exact ⟨[], by rw [← h1, List.append_nil]⟩
  | cons relation rest ih =>
    intro mem out hB hrest ho
    have hq : Storage.WellFormed mem relation := hrest relation (List.mem_cons_self _ _)
    have hrest' : ∀ q ∈ rest, Storage.WellFormed mem q :=
      fun q hq => hrest q (List.mem_cons_of_mem _ hq)
    have hs : Storage.probePhase grow hashMap index2 (relation :: rest) mem out
        = (Storage.keyAt mem relation index2 >>= fun key =>
            match hashMap.lookup key with
            | some val =>
              Storage.probePhase grow hashMap index2 rest
                (Storage.emitBucket grow relation val mem out).1
                (Storage.emitBucket grow relation val mem out).2
            | none => Storage.probePhase grow hashMap index2 rest mem out) := rfl
    have hv : probePhase (Storage.readBuckets mem hashMap) index2
          (Storage.readTable mem (relation :: rest)) (Storage.readTable mem out)
        = (keyAt ⟨Storage.fields mem relation⟩ index2 >>= fun key =>
            match (Storage.readBuckets mem hashMap).lookup key with
            | some val =>
              probePhase (Storage.readBuckets mem hashMap) index2 (Storage.readTable mem rest)
                (emitBucket ⟨Storage.fields mem relation⟩ val (Storage.readTable mem out))
            | none =>
              probePhase (Storage.readBuckets mem hashMap) index2 (Storage.readTable mem rest)
                (Storage.readTable mem out)) := rfl
    rw [hs, hv, storage_keyAt_eq]
    cases keyAt ⟨Storage.fields mem relation⟩ index2 with
    | error e => exact ⟨rfl, fun _ _ h => by cases h⟩
    | ok key =>
      simp only [ok_bind]
      rw [readBuckets_lookup]
      cases hl : hashMap.lookup key with
      | none => exact ih mem out hB hrest' ho
      | some val =>
        have hval := allRows_lookup hB hl
        obtain ⟨e1, hm1, hw1, hf1⟩ := emitBucket_reads grow relation val mem out hq hval ho
        have hB1 : hashMap.AllRows
            (fun r => Storage.WellFormed (mem ++ e1) r ∧ Storage.NoSpare (mem ++ e1) r) :=
          allRows_imp (fun r hr => ⟨wellFormed_extend e1 hr.1, noSpare_extend e1 hr.1 hr.2⟩) hB
        have hrest1 : ∀ q ∈ rest, Storage.WellFormed (mem ++ e1) q :=
          fun q hq => wellFormed_extend e1 (hrest' q hq)
        have hih := ih (mem ++ e1) (Storage.emitBucket grow relation val mem out).2
          hB1 hrest1 hw1
        simp only [Option.map_some']
        rw [hm1]
        constructor
        · rw [hih.1, readBuckets_extend e1 (allRows_imp (fun r hr => hr.1) hB),
            readTable_extend e1 hrest', hf1]
        · intro mem' out' h
          obtain ⟨e2, he2⟩ := hih.2 mem' out' h
          exact ⟨e1 ++ e2, by rw [he2, List.append_assoc]⟩

/-- When no row of the build table has spare capacity (and all rows lie within
the memory), `HashJoin` with the storage of the rows returns what `HashJoin` on
field sequences returns, and the memory it leaves has the arrays it found,
unchanged, followed by new ones. -/
theorem hashJoin_refines (grow : Nat → Nat → Nat) (mem : Storage.Memory)
    (table1 table2 : List Storage.Row) (index1 index2 : Int)
    (h1 : ∀ row ∈ table1, Storage.WellFormed mem row ∧ Storage.NoSpare mem row)
    (h2 : ∀ row ∈ table2, Storage.WellFormed mem row) :
    (Storage.HashJoin grow mem table1 table2 index1 index2).map
        (fun out => (out.rows, out.err))
      = HashJoin (Storage.readTable mem table1) (Storage.readTable mem table2) index1 index2 ∧
    ∀ out, Storage.HashJoin grow mem table1 table2 index1 index2 = .ok out →
      ∃ extra, out.mem = mem ++ extra := by
  have hb := buildPhase_reads mem index1 table1 []
  have hs : Storage.HashJoin grow mem table1 table2 index1 index2
      = (Storage.buildPhase mem index1 table1 [] >>= fun hashMap =>
          Storage.probePhase grow hashMap index2 table2 mem [] >>= fun p =>
            pure ⟨p.1, p.2, none⟩) := rfl
  have hv : HashJoin (Storage.readTable mem table1) (Storage.readTable mem table2) index1 index2
      = (buildPhase index1 (Storage.readTable mem table1) [] >>= fun hashMap =>
          probePhase hashMap index2 (Storage.readTable mem table2) [] >>= fun outputTabe =>
            pure (outputTabe, none)) := rfl
  rw [hs, hv]
  have hb' : buildPhase index1 (Storage.readTable mem table1) []
      = (Storage.buildPhase mem index1 table1 []).map (Storage.readBuckets mem) := hb.symm
  rw [hb']
  cases hbuild : Storage.buildPhase mem index1 table1 [] with
  | error e => exact ⟨rfl, fun _ h => by cases h⟩
  | ok hashMap =>
    have hB : hashMap.AllRows (fun r => Storage.WellFormed mem r ∧ Storage.NoSpare mem r) :=
      buildPhase_allRows mem index1 _ table1 [] hashMap (fun p hp => by cases hp) h1 hbuild
    obtain ⟨hp1, hp2⟩ := probePhase_reads grow hashMap index2 table2 mem [] hB h2
      (fun o ho => by cases ho)
    have hp1' : probePhase (Storage.readBuckets mem hashMap) index2
          (Storage.readTable mem table2) []
        = (Storage.probePhase grow hashMap index2 table2 mem []).map
            (fun p => Storage.readTable p.1 p.2) := hp1.symm
    show ((Storage.probePhase grow hashMap index2 table2 mem [] >>= fun p =>
        (pure ⟨p.1, p.2, none⟩ : Except Fault Storage.JoinOutcome)).map
          (fun out => (out.rows, out.err))
        = (probePhase (Storage.readBuckets mem hashMap) index2
            (Storage.readTable mem table2) [] >>= fun outputTabe =>
              (pure (outputTabe, none) : Except Fault (List Relation × Option String)))) ∧ _
    rw [hp1']
    cases hprobe : Storage.probePhase grow hashMap index2 table2 mem [] with
    | error e =>
      refine ⟨rfl, ?_⟩
      intro out h
      simp only [ok_bind] at h
      rw [hprobe] at h
      cases h
    | ok p =>
      refine ⟨rfl, ?_⟩
      intro out h
      simp only [ok_bind] at h
      rw [hprobe] at h
      have hout : (⟨p.1, p.2, none⟩ : Storage.JoinOutcome) = out := Except.ok.inj h
      obtain ⟨extra, he⟩ := hp2 p.1 p.2 hprobe
      exact ⟨extra, by rw [← hout]; exact he⟩

/-! ## SortMergeJoin on rows without spare capacity -/

theorem length_readTable (mem : Storage.Memory) (table : List Storage.Row) :
    (Storage.readTable mem table).length = table.length := by
  simp [Storage.readTable]

theorem rowAt_reads (mem : Storage.Memory) (table : List Storage.Row) (i : Nat) :
    rowAt (Storage.readTable mem table) i
      = (Storage.rowAt table i).map (fun r => ⟨Storage.fields mem r⟩) := by
  unfold rowAt Storage.rowAt Storage.readTable
  rw [List.getElem?_map]
  cases table[i]? <;> rfl

theorem storage_rowAt_mem {table : List Storage.Row} {i : Nat} {a : Storage.Row}
    (h : Storage.rowAt table i = .ok a) : a ∈ table := by
  unfold Storage.rowAt at h
  cases hi : table[i]? with
  | none => rw [hi] at h; cases h
  | some r =>
    rw [hi] at h
    have : r = a := Except.ok.inj h
    rw [← this]
    exact List.getElem?_mem hi

theorem simulates_ok {mem : Storage.Memory} {out : List Storage.Row}
    (ho : ∀ o ∈ out, Storage.WellFormed mem o) :
    Storage.Simulates mem (.ok (mem, out)) (.ok (Storage.readTable mem out)) :=
  ⟨⟨[], (List.append_nil mem).symm⟩, ho, rfl⟩

/-- A loop that simulates from a later memory simulates from the earlier one. -/
theorem simulates_extend {mem : Storage.Memory} (e1 : Storage.Memory)
    {r : Except Fault (Storage.Memory × List Storage.Row)} {v : Except Fault (List Relation)}
    (h : Storage.Simulates (mem ++ e1) r v) : Storage.Simulates mem r v := by
  cases r with
  | error e =>
    cases v with
    | error e' => exact h
    | ok rows => exact h
  | ok p =>
    cases v with
    | error e' => exact h
    | ok rows =>
      obtain ⟨⟨e2, he⟩, hw, hr⟩ := h
      exact ⟨⟨e1 ++ e2, by rw [he, List.append_assoc]⟩, hw, hr⟩

/-- The step shared by the three loops: one `append` of a row of the first
table and a row of the second, both read in a memory where the first table has
no spare capacity. -/
theorem append_step (grow : Nat → Nat → Nat) {mem : Storage.Memory} {a b : Storage.Row}
    {out : List Storage.Row} (ha : Storage.WellFormed mem a ∧ Storage.NoSpare mem a)
    (hb : Storage.WellFormed mem b) (ho : ∀ o ∈ out, Storage.WellFormed mem o) :
    ∃ e1, (Storage.appendValues grow mem a b).1 = mem ++ e1 ∧
      (∀ o ∈ out ++ [(Storage.appendValues grow mem a b).2],
        Storage.WellFormed (mem ++ e1) o) ∧
      Storage.readTable (mem ++ e1) (out ++ [(Storage.appendValues grow mem a b).2])
        = Storage.readTable mem out
          ++ [concatRow ⟨Storage.fields mem a⟩ ⟨Storage.fields mem b⟩] := by
  obtain ⟨e1, hm1, hw1, hf1⟩ := appendValues_fresh grow ha.1 hb ha.2
  refine ⟨e1, hm1, ?_, ?_⟩
  · intro o hmem
    rcases List.mem_append.mp hmem with hmem | hmem
    · exact wellFormed_extend e1 (ho o hmem)
    · rcases List.mem_singleton.mp hmem with rfl
      exact hw1
  · rw [readTable_append, readTable_extend e1 ho]
    simp only [Storage.readTable, List.map_cons, List.map_nil, hf1, concatRow]

theorem scanJ_simulates (grow : Nat → Nat → Nat) (table1 table2 : List Storage.Row)
    (index1 index2 : Int) (i : Nat) :
    ∀ (fuel jPrime : Nat) (mem : Storage.Memory) (out : List Storage.Row),
      (∀ r ∈ table1, Storage.WellFormed mem r ∧ Storage.NoSpare mem r) →
      (∀ r ∈ table2, Storage.WellFormed mem r) →
      (∀ o ∈ out, Storage.WellFormed mem o) →
      Storage.Simulates mem
        (Storage.scanJ grow table1 table2 index1 index2 i fuel jPrime mem out)
        (scanJ (Storage.readTable mem table1) (Storage.readTable mem table2) index1 index2 i
          fuel jPrime (Storage.readTable mem out)) := by
  intro fuel
  induction fuel with
  | zero =>
    intro jPrime mem out _ _ ho
    by_cases hj : jPrime < table2.length
    · simp only [Storage.scanJ, scanJ, length_readTable, if_pos hj]
      exact rfl
    · simp only [Storage.scanJ, scanJ, length_readTable, if_neg hj]
      exact simulates_ok ho
  | succ fuel ih =>
    intro jPrime mem out h1 h2 ho
    by_cases hj : jPrime < table2.length
    · simp only [Storage.scanJ, scanJ, length_readTable, if_pos hj, rowAt_reads]
      cases hA : Storage.rowAt table1 i with
      | error e => exact rfl
      | ok a =>
        have ha := h1 a (storage_rowAt_mem hA)
        show Storage.Simulates mem (Storage.keyAt mem a index1 >>= _)
          (keyAt ⟨Storage.fields mem a⟩ index1 >>= _)
        rw [storage_keyAt_eq]
        cases keyAt ⟨Storage.fields mem a⟩ index1 with
        | error e => exact rfl
        | ok x =>
          simp only [ok_bind]
          cases hB : Storage.rowAt table2 jPrime with
          | error e => exact rfl
          | ok b =>
            have hb := h2 b (storage_rowAt_mem hB)
            show Storage.Simulates mem (Storage.keyAt mem b index2 >>= _)
              (keyAt ⟨Storage.fields mem b⟩ index2 >>= _)
            rw [storage_keyAt_eq]
            cases keyAt ⟨Storage.fields mem b⟩ index2 with
            | error e => exact rfl
            | ok y =>
              simp only [ok_bind]
              by_cases hxy : x = y
              · simp only [if_pos hxy]
                obtain ⟨e1, hm1, hw1, hr1⟩ := append_step grow ha hb ho
                have hih := ih (jPrime + 1) (mem ++ e1)
                  (out ++ [(Storage.appendValues grow mem a b).2])
                  (fun r hr => ⟨wellFormed_extend e1 (h1 r hr).1,
                    noSpare_extend e1 (h1 r hr).1 (h1 r hr).2⟩)
                  (fun r hr => wellFormed_extend e1 (h2 r hr)) hw1
                rw [readTable_extend e1 (fun r hr => (h1 r hr).1),
                  readTable_extend e1 h2, hr1] at hih
                show Storage.Simulates mem
                  (Storage.scanJ grow table1 table2 index1 index2 i fuel (jPrime + 1)
                    (Storage.appendValues grow mem a b).1
                    (out ++ [(Storage.appendValues grow mem a b).2])) _
                rw [hm1]
                exact simulates_extend e1 hih
              · simp only [if_neg hxy]
                exact simulates_ok ho
    · simp only [Storage.scanJ, scanJ, length_readTable, if_neg hj]
      exact simulates_ok ho

theorem scanI_simulates (grow : Nat → Nat → Nat) (table1 table2 : List Storage.Row)
    (index1 index2 : Int) (j : Nat) :
    ∀ (fuel iPrime : Nat) (mem : Storage.Memory) (out : List Storage.Row),
      (∀ r ∈ table1, Storage.WellFormed mem r ∧ Storage.NoSpare mem r) →
      (∀ r ∈ table2, Storage.WellFormed mem r) →
      (∀ o ∈ out, Storage.WellFormed mem o) →
      Storage.Simulates mem
        (Storage.scanI grow table1 table2 index1 index2 j fuel iPrime mem out)
        (scanI (Storage.readTable mem table1) (Storage.readTable mem table2) index1 index2 j
          fuel iPrime (Storage.readTable mem out)) := by
  intro fuel
  induction fuel with
  | zero =>
    intro iPrime mem out _ _ ho
    by_cases hi : iPrime < table1.length
    · simp only [Storage.scanI, scanI, length_readTable, if_pos hi]
      exact rfl
    · simp only [Storage.scanI, scanI, length_readTable, if_neg hi]
      exact simulates_ok ho
  | succ fuel ih =>
    intro iPrime mem out h1 h2 ho
    by_cases hi : iPrime < table1.length
    · simp only [Storage.scanI, scanI, length_readTable, if_pos hi, rowAt_reads]
      cases hA : Storage.rowAt table1 iPrime with
      | error e => exact rfl
      | ok a =>
        have ha := h1 a (storage_rowAt_mem hA)
        show Storage.Simulates mem (Storage.keyAt mem a index1 >>= _)
          (keyAt ⟨Storage.fields mem a⟩ index1 >>= _)
        rw [storage_keyAt_eq]
        cases keyAt ⟨Storage.fields mem a⟩ index1 with
        | error e => exact rfl
        | ok x =>
          simp only [ok_bind]
          cases hB : Storage.rowAt table2 j with
          | error e => exact rfl
          | ok b =>
            have hb := h2 b (storage_rowAt_mem hB)
            show Storage.Simulates mem (Storage.keyAt mem b index2 >>= _)
              (keyAt ⟨Storage.fields mem b⟩ index2 >>= _)
            rw [storage_keyAt_eq]
            cases keyAt ⟨Storage.fields mem b⟩ index2 with
            | error e => exact rfl
            | ok y =>
              simp only [ok_bind]
              by_cases hxy : x = y
              · simp only [if_pos hxy]
                obtain ⟨e1, hm1, hw1, hr1⟩ := append_step grow ha hb ho
                have hih := ih (iPrime + 1) (mem ++ e1)
                  (out ++ [(Storage.appendValues grow mem a b).2])
                  (fun r hr => ⟨wellFormed_extend e1 (h1 r hr).1,
                    noSpare_extend e1 (h1 r hr).1 (h1 r hr).2⟩)
                  (fun r hr => wellFormed_extend e1 (h2 r hr)) hw1
                rw [readTable_extend e1 (fun r hr => (h1 r hr).1),
                  readTable_extend e1 h2, hr1] at hih
                show Storage.Simulates mem
                  (Storage.scanI grow table1 table2 index1 index2 j fuel (iPrime + 1)
                    (Storage.appendValues grow mem a b).1
                    (out ++ [(Storage.appendValues grow mem a b).2])) _
                rw [hm1]
                exact simulates_extend e1 hih
              · simp only [if_neg hxy]
                exact simulates_ok ho
    · simp only [Storage.scanI, scanI, length_readTable, if_neg hi]
      exact simulates_ok ho

/-- Two loops in sequence simulate when each does. -/
theorem simulates_bind {mem : Storage.Memory}
    {r : Except Fault (Storage.Memory × List Storage.Row)} {v : Except Fault (List Relation)}
    {f : Storage.Memory × List Storage.Row → Except Fault (Storage.Memory × List Storage.Row)}
    {g : List Relation → Except Fault (List Relation)}
    (h : Storage.Simulates mem r v)
    (hfg : ∀ (e1 : Storage.Memory) (out' : List Storage.Row),
      (∀ o ∈ out', Storage.WellFormed (mem ++ e1) o) →
      Storage.Simulates (mem ++ e1) (f (mem ++ e1, out'))
        (g (Storage.readTable (mem ++ e1) out'))) :
    Storage.Simulates mem (r >>= f) (v >>= g) := by
  cases r with
  | error e =>
    cases v with
    | error e' => exact h
    | ok rows => exact h.elim
  | ok p =>
    cases v with
    | error e' => exact h.elim
    | ok rows =>
      obtain ⟨p1, p2⟩ := p
      obtain ⟨⟨e1, he⟩, hw, hr⟩ := h
      simp only at he hw hr
      subst he
      subst hr
      exact simulates_extend e1 (hfg e1 p2 hw)

theorem mergeLoop_simulates (grow : Nat → Nat → Nat) (table1 table2 : List Storage.Row)
    (index1 index2 : Int) :
    ∀ (fuel i j : Nat) (mem : Storage.Memory) (out : List Storage.Row),
      (∀ r ∈ table1, Storage.WellFormed mem r ∧ Storage.NoSpare mem r) →
      (∀ r ∈ table2, Storage.WellFormed mem r) →
      (∀ o ∈ out, Storage.WellFormed mem o) →
      Storage.Simulates mem
        (Storage.mergeLoop grow table1 table2 index1 index2 fuel i j mem out)
        (mergeLoop (Storage.readTable mem table1) (Storage.readTable mem table2) index1 index2
          fuel i j (Storage.readTable mem out)) := by
  intro fuel
  induction fuel with
  | zero =>
    intro i j mem out _ _ ho
    by_cases hc : i < table1.length ∧ j < table2.length
    · simp only [Storage.mergeLoop, mergeLoop, length_readTable, if_pos hc]
      exact rfl
    · simp only [Storage.mergeLoop, mergeLoop, length_readTable, if_neg hc]
      exact simulates_ok ho
  | succ fuel ih =>
    intro i j mem out h1 h2 ho
    by_cases hc : i < table1.length ∧ j < table2.length
    · simp only [Storage.mergeLoop, mergeLoop, length_readTable, if_pos hc, rowAt_reads]
      cases hA : Storage.rowAt table1 i with
      | error e => exact rfl
      | ok a =>
        have ha := h1 a (storage_rowAt_mem hA)
        show Storage.Simulates mem (Storage.keyAt mem a index1 >>= _)
          (keyAt ⟨Storage.fields mem a⟩ index1 >>= _)
        rw [storage_keyAt_eq]
        cases keyAt ⟨Storage.fields mem a⟩ index1 with
        | error e => exact rfl
        | ok x =>
          simp only [ok_bind]
          cases hB : Storage.rowAt table2 j with
          | error e => exact rfl
          | ok b =>
            have hb := h2 b (storage_rowAt_mem hB)
            show Storage.Simulates mem (Storage.keyAt mem b index2 >>= _)
              (keyAt ⟨Storage.fields mem b⟩ index2 >>= _)
            rw [storage_keyAt_eq]
            cases keyAt ⟨Storage.fields mem b⟩ index2 with
            | error e => exact rfl
            | ok y =>
              simp only [ok_bind]
              by_cases hlt : x < y
              · simp only [if_pos hlt]
                exact ih (i + 1) j mem out h1 h2 ho
              · simp only [if_neg hlt]
                by_cases hgt : x > y
                · simp only [if_pos hgt]
                  exact ih i (j + 1) mem out h1 h2 ho
                · simp only [if_neg hgt]
                  obtain ⟨e1, hm1, hw1, hr1⟩ := append_step grow ha hb ho
                  have hall1 : ∀ r ∈ table1, Storage.WellFormed (mem ++ e1) r ∧
                      Storage.NoSpare (mem ++ e1) r :=
                    fun r hr => ⟨wellFormed_extend e1 (h1 r hr).1,
                      noSpare_extend e1 (h1 r hr).1 (h1 r hr).2⟩
                  have hall2 : ∀ r ∈ table2, Storage.WellFormed (mem ++ e1) r :=
                    fun r hr => wellFormed_extend e1 (h2 r hr)
                  have hJ := scanJ_simulates grow table1 table2 index1 index2 i table2.length
                    (j + 1) (mem ++ e1) (out ++ [(Storage.appendValues grow mem a b).2])
                    hall1 hall2 hw1
                  rw [readTable_extend e1 (fun r hr => (h1 r hr).1),
                    readTable_extend e1 h2, hr1] at hJ
                  show Storage.Simulates mem
                    (Storage.scanJ grow table1 table2 index1 index2 i table2.length (j + 1)
                      (Storage.appendValues grow mem a b).1
                      (out ++ [(Storage.appendValues grow mem a b).2]) >>= _) (_ >>= _)
                  rw [hm1]
                  apply simulates_extend e1
                  apply simulates_bind hJ
                  intro e2 out2 hw2
                  have hall1' : ∀ r ∈ table1, Storage.WellFormed (mem ++ e1 ++ e2) r ∧
                      Storage.NoSpare (mem ++ e1 ++ e2) r :=
                    fun r hr => ⟨wellFormed_extend e2 (hall1 r hr).1,
                      noSpare_extend e2 (hall1 r hr).1 (hall1 r hr).2⟩
                  have hall2' : ∀ r ∈ table2, Storage.WellFormed (mem ++ e1 ++ e2) r :=
                    fun r hr => wellFormed_extend e2 (hall2 r hr)
                  have hI := scanI_simulates grow table1 table2 index1 index2 j table1.length
                    (i + 1) (mem ++ e1 ++ e2) out2 hall1' hall2' hw2
                  rw [readTable_extend e2 (fun r hr => (hall1 r hr).1),
                    readTable_extend e2 hall2,
                    readTable_extend e1 (fun r hr => (h1 r hr).1),
                    readTable_extend e1 h2] at hI
                  apply simulates_bind hI
                  intro e3 out3 hw3
                  have hih := ih (i + 1) (j + 1) (mem ++ e1 ++ e2 ++ e3) out3
                    (fun r hr => ⟨wellFormed_extend e3 (hall1' r hr).1,
                      noSpare_extend e3 (hall1' r hr).1 (hall1' r hr).2⟩)
                    (fun r hr => wellFormed_extend e3 (hall2' r hr)) hw3
                  rw [readTable_extend e3 (fun r hr => (hall1' r hr).1),
                    readTable_extend e3 hall2',
                    readTable_extend e2 (fun r hr => (hall1 r hr).1),
                    readTable_extend e2 hall2,
                    readTable_extend e1 (fun r hr => (h1 r hr).1),
                    readTable_extend e1 h2] at hih
                  exact hih
    · simp only [Storage.mergeLoop, mergeLoop, length_readTable, if_neg hc]
      exact simulates_ok ho

theorem except_map_ok {α β : Type} (f : α → β) (a : α) :
    (Except.ok a : Except Fault α).map f = .ok (f a) := rfl

/-- The merge phase on rows without spare capacity in the first table. -/
theorem mergePhase_refines (grow : Nat → Nat → Nat) (mem : Storage.Memory)
    (table1 table2 : List Storage.Row) (index1 index2 : Int)
    (h1 : ∀ row ∈ table1, Storage.WellFormed mem row ∧ Storage.NoSpare mem row)
    (h2 : ∀ row ∈ table2, Storage.WellFormed mem row) :
    (Storage.mergePhase grow mem table1 table2 index1 index2).map
        (fun out => (out.rows, out.err))
      = (mergeLoop (Storage.readTable mem table1) (Storage.readTable mem table2) index1 index2
          (table1.length + table2.length) 0 0 []).map (fun rows => (rows, none)) ∧
    ∀ out, Storage.mergePhase grow mem table1 table2 index1 index2 = .ok out →
      ∃ extra, out.mem = mem ++ extra := by
  have hsim := mergeLoop_simulates grow table1 table2 index1 index2
    (table1.length + table2.length) 0 0 mem [] h1 h2 (fun o ho => by cases ho)
  have hs : Storage.mergePhase grow mem table1 table2 index1 index2
      = (Storage.mergeLoop grow table1 table2 index1 index2
          (table1.length + table2.length) 0 0 mem [] >>= fun p =>
            pure ⟨p.1, p.2, none⟩) := rfl
  rw [hs]
  have hnil : Storage.readTable mem [] = [] := rfl
  rw [hnil] at hsim
  cases hS : Storage.mergeLoop grow table1 table2 index1 index2
      (table1.length + table2.length) 0 0 mem [] with
  | error e =>
    rw [hS] at hsim
    cases hV : mergeLoop (Storage.readTable mem table1) (Storage.readTable mem table2)
        index1 index2 (table1.length + table2.length) 0 0 [] with
    | error e' =>
      rw [hV] at hsim
      have : e = e' := hsim
      subst this
      exact ⟨rfl, fun _ h => by cases h⟩
    | ok rows => rw [hV] at hsim; exact hsim.elim
  | ok p =>
    rw [hS] at hsim
    cases hV : mergeLoop (Storage.readTable mem table1) (Storage.readTable mem table2)
        index1 index2 (table1.length + table2.length) 0 0 [] with
    | error e' => rw [hV] at hsim; exact hsim.elim
    | ok rows =>
      rw [hV] at hsim
      obtain ⟨hext, _, hr⟩ := hsim
      refine ⟨?_, ?_⟩
      · show Except.ok (Storage.readTable p.1 p.2, none) = Except.ok (rows, none)
        rw [hr]
      · intro out h
        have hout : (⟨p.1, p.2, none⟩ : Storage.JoinOutcome) = out := Except.ok.inj h
        rw [← hout]
        exact hext

/-! ## The insertion sort on rows in memory -/

theorem storage_lessByKey_eq (mem : Storage.Memory) (index : Int) (a b : Storage.Row) :
    Storage.lessByKey mem index a b
      = lessByKey index ⟨Storage.fields mem a⟩ ⟨Storage.fields mem b⟩ := rfl

theorem sinkLeft_reads (mem : Storage.Memory) (index : Int) (x : Storage.Row) :
    ∀ before : List Storage.Row,
      (Storage.sinkLeft (Storage.lessByKey mem index) x before).map (Storage.readTable mem)
        = sinkLeft (lessByKey index) ⟨Storage.fields mem x⟩ (Storage.readTable mem before) := by
  intro before
  induction before with
  | nil => rfl
  | cons y before ih =>
    have hs : Storage.sinkLeft (Storage.lessByKey mem index) x (y :: before)
        = (Storage.lessByKey mem index x y >>= fun c =>
            if c then
              Storage.sinkLeft (Storage.lessByKey mem index) x before >>= fun r => pure (y :: r)
            else pure (x :: y :: before)) := rfl
    have hv : sinkLeft (lessByKey index) ⟨Storage.fields mem x⟩
          (Storage.readTable mem (y :: before))
        = (lessByKey index ⟨Storage.fields mem x⟩ ⟨Storage.fields mem y⟩ >>= fun c =>
            if c then
              sinkLeft (lessByKey index) ⟨Storage.fields mem x⟩ (Storage.readTable mem before)
                >>= fun r => pure (⟨Storage.fields mem y⟩ :: r)
            else pure (⟨Storage.fields mem x⟩ :: ⟨Storage.fields mem y⟩ ::
              Storage.readTable mem before)) := rfl
    rw [hs, hv, storage_lessByKey_eq, ← ih]
    cases lessByKey index ⟨Storage.fields mem x⟩ ⟨Storage.fields mem y⟩ with
    | error e => rfl
    | ok c =>
      cases c with
      | false => rfl
      | true =>
        simp only [ok_bind, if_true]
        cases Storage.sinkLeft (Storage.lessByKey mem index) x before <;> rfl

theorem insertionSortLoop_reads (mem : Storage.Memory) (index : Int) :
    ∀ todo done : List Storage.Row,
      (Storage.insertionSortLoop (Storage.lessByKey mem index) todo done).map
          (Storage.readTable mem)
        = insertionSortLoop (lessByKey index) (Storage.readTable mem todo)
            (Storage.readTable mem done) := by
  intro todo
  induction todo with
  | nil =>
    intro done
    show Except.ok (Storage.readTable mem done.reverse)
      = Except.ok (Storage.readTable mem done).reverse
    simp [Storage.readTable]
  | cons x todo ih =>
    intro done
    have hs : Storage.insertionSortLoop (Storage.lessByKey mem index) (x :: todo) done
        = (Storage.sinkLeft (Storage.lessByKey mem index) x done >>= fun d =>
            Storage.insertionSortLoop (Storage.lessByKey mem index) todo d) := rfl
    have hv : insertionSortLoop (lessByKey index) (Storage.readTable mem (x :: todo))
          (Storage.readTable mem done)
        = (sinkLeft (lessByKey index) ⟨Storage.fields mem x⟩ (Storage.readTable mem done)
            >>= fun d => insertionSortLoop (lessByKey index) (Storage.readTable mem todo) d) :=
      rfl
    rw [hs, hv, ← sinkLeft_reads]
    cases Storage.sinkLeft (Storage.lessByKey mem index) x done with
    | error e => rfl
    | ok d => exact ih d

theorem storage_sinkLeft_perm (less : Storage.Row → Storage.Row → Except Fault Bool)
    (x : Storage.Row) :
    ∀ (before r : List Storage.Row), Storage.sinkLeft less x before = .ok r →
      r.Perm (x :: before) := by
  intro before
  induction before with
  | nil =>
    intro r h
    have : [x] = r := Except.ok.inj h
    rw [← this]
  | cons y before ih =>
    intro r h
    have hs : Storage.sinkLeft less x (y :: before)
        = (less x y >>= fun c =>
            if c then Storage.sinkLeft less x before >>= fun r => pure (y :: r)
            else pure (x :: y :: before)) := rfl
    rw [hs] at h
    cases hc : less x y with
    | error e => rw [hc] at h; cases h
    | ok c =>
      rw [hc] at h
      cases c with
      | false =>
        have : x :: y :: before = r := Except.ok.inj h
        rw [← this]
      | true =>
        simp only [ok_bind, if_true] at h
        cases hr : Storage.sinkLeft less x before with
        | error e => rw [hr] at h; cases h
        | ok r' =>
          rw [hr] at h
          have : y :: r' = r := Except.ok.inj h
          rw [← this]
          exact (List.Perm.cons y (ih r' hr)).trans (List.Perm.swap x y before)

theorem storage_insertionSortLoop_perm (less : Storage.Row → Storage.Row → Except Fault Bool) :
    ∀ (todo done sorted : List Storage.Row),
      Storage.insertionSortLoop less todo done = .ok sorted →
      sorted.Perm (done.reverse ++ todo) := by
  intro todo
  induction todo with
  | nil =>
    intro done sorted h
    have : done.reverse = sorted := Except.ok.inj h
    rw [← this, List.append_nil]
  | cons x todo ih =>
    intro done sorted h
    have hs : Storage.insertionSortLoop less (x :: todo) done
        = (Storage.sinkLeft less x done >>= fun d =>
            Storage.insertionSortLoop less todo d) := rfl
    rw [hs] at h
    cases hd : Storage.sinkLeft less x done with
    | error e => rw [hd] at h; cases h
    | ok d =>
      rw [hd] at h
      have hp := storage_sinkLeft_perm less x done d hd
      refine (ih d sorted h).trans ?_
      have h1 : d.reverse.Perm (done.reverse ++ [x]) := by
        refine (List.reverse_perm d).trans (hp.trans ?_)
        refine (List.Perm.cons x (List.reverse_perm done).symm).trans ?_
        exact (List.perm_append_comm : ([x] ++ done.reverse).Perm (done.reverse ++ [x]))
      simpa using List.Perm.append_right todo h1

/-- The insertion sort on rows in memory does what the insertion sort on field
sequences does. -/
theorem insertionSort_sortersAgree :
    Storage.SortersAgree Storage.insertionSortSlice insertionSortSlice := by
  intro mem index table
  refine ⟨insertionSortLoop_reads mem index table [], ?_⟩
  intro sorted h
  simpa using storage_insertionSortLoop_perm _ table [] sorted h

/-- When no row of the first table has spare capacity (and all rows lie within
the memory), `SortMergeJoin` with the storage of the rows returns the rows and
the error that `SortMergeJoin` on field sequences returns, and the memory it
leaves has the arrays it found, unchanged, followed by new ones. -/
theorem sortMergeJoin_refines (sortRows : Storage.SliceSorter) (sortSlice : SliceSorter)
    (hagree : Storage.SortersAgree sortRows sortSlice)
    (grow : Nat → Nat → Nat) (mem : Storage.Memory)
    (table1 table2 : List Storage.Row) (index1 index2 : Int)
    (h1 : ∀ row ∈ table1, Storage.WellFormed mem row ∧ Storage.NoSpare mem row)
    (h2 : ∀ row ∈ table2, Storage.WellFormed mem row) :
    (Storage.SortMergeJoin sortRows grow mem table1 table2 index1 index2).map
        (fun out => (out.joined.rows, out.joined.err,
          Storage.readTable mem out.table1, Storage.readTable mem out.table2))
      = (SortMergeJoin sortSlice (Storage.readTable mem table1) (Storage.readTable mem table2)
          index1 index2).map (fun out => (out.outputTable, out.err, out.table1, out.table2)) ∧
    ∀ out, Storage.SortMergeJoin sortRows grow mem table1 table2 index1 index2 = .ok out →
      ∃ extra, out.joined.mem = mem ++ extra := by
  have hs : Storage.SortMergeJoin sortRows grow mem table1 table2 index1 index2
      = (sortRows (Storage.lessByKey mem index1) table1 >>= fun s1 =>
          sortRows (Storage.lessByKey mem index2) table2 >>= fun s2 =>
            Storage.mergePhase grow mem s1 s2 index1 index2 >>= fun joined =>
              pure ⟨joined, s1, s2⟩) := rfl
  have hv : SortMergeJoin sortSlice (Storage.readTable mem table1)
        (Storage.readTable mem table2) index1 index2
      = (sortSlice (lessByKey index1) (Storage.readTable mem table1) >>= fun s1 =>
          sortSlice (lessByKey index2) (Storage.readTable mem table2) >>= fun s2 =>
            mergeLoop s1 s2 index1 index2 (s1.length + s2.length) 0 0 [] >>= fun rows =>
              pure ⟨rows, none, s1, s2⟩) := rfl
  rw [hs, hv, ← (hagree mem index1 table1).1, ← (hagree mem index2 table2).1]
  cases hs1 : sortRows (Storage.lessByKey mem index1) table1 with
  | error e => exact ⟨rfl, fun _ h => by cases h⟩
  | ok s1 =>
    have hp1 := (hagree mem index1 table1).2 s1 hs1
    cases hs2 : sortRows (Storage.lessByKey mem index2) table2 with
    | error e => exact ⟨rfl, fun _ h => by cases h⟩
    | ok s2 =>
      have hp2 := (hagree mem index2 table2).2 s2 hs2
      obtain ⟨hm1, hm2⟩ := mergePhase_refines grow mem s1 s2 index1 index2
        (fun row hrow => h1 row (hp1.subset hrow)) (fun row hrow => h2 row (hp2.subset hrow))
      rw [← length_readTable mem s1, ← length_readTable mem s2] at hm1
      simp only [ok_bind, except_map_ok]
      cases hmp : Storage.mergePhase grow mem s1 s2 index1 index2 with
      | error e =>
        rw [hmp] at hm1
        cases hml : mergeLoop (Storage.readTable mem s1) (Storage.readTable mem s2) index1
            index2 ((Storage.readTable mem s1).length + (Storage.readTable mem s2).length)
            0 0 [] with
        | error e' =>
          rw [hml] at hm1
          have he : e = e' := Except.error.inj hm1
          subst he
          exact ⟨rfl, fun _ h => by cases h⟩
        | ok rows => rw [hml] at hm1; cases hm1
      | ok joined =>
        rw [hmp] at hm1
        cases hml : mergeLoop (Storage.readTable mem s1) (Storage.readTable mem s2) index1
            index2 ((Storage.readTable mem s1).length + (Storage.readTable mem s2).length)
            0 0 [] with
        | error e' => rw [hml] at hm1; cases hm1
        | ok rows =>
          rw [hml] at hm1
          have hpair : (joined.rows, joined.err) = (rows, none) := Except.ok.inj hm1
          injection hpair with hrows herr
          refine ⟨?_, ?_⟩
          · show (Except.ok (joined.rows, joined.err, Storage.readTable mem s1,
                Storage.readTable mem s2) : Except Fault _)
              = Except.ok (rows, none, Storage.readTable mem s1, Storage.readTable mem s2)
            rw [hrows, herr]
          · intro out h
            have hout : (⟨joined, s1, s2⟩ : Storage.SortMergeOutcome) = out := Except.ok.inj h
            rw [← hout]
            exact hm2 joined hmp

/-! ## What the joins return when the first table has no spare capacity -/

/-- With key indices valid for every row and no spare capacity in the rows of
the build table, `HashJoin` returns exactly the nested-loop equi-join of the
two tables, probe rows outermost, and a nil error; the arrays it found are
unchanged. -/
theorem hashJoin_without_spare (grow : Nat → Nat → Nat) (mem : Storage.Memory)
    (table1 table2 : List Storage.Row) (index1 index2 : Int)
    (h1 : ∀ row ∈ table1, Storage.WellFormed mem row ∧ Storage.NoSpare mem row)
    (h2 : ∀ row ∈ table2, Storage.WellFormed mem row)
    (hv1 : KeysValid (Storage.readTable mem table1) index1)
    (hv2 : KeysValid (Storage.readTable mem table2) index2) :
    ∃ out, Storage.HashJoin grow mem table1 table2 index1 index2 = .ok out ∧
      out.rows = nestedLoopJoin (Storage.readTable mem table1) index1 index2
        (Storage.readTable mem table2) ∧
      out.err = none ∧ ∃ extra, out.mem = mem ++ extra := by
  obtain ⟨hr, hm⟩ := hashJoin_refines grow mem table1 table2 index1 index2 h1 h2
  rw [hashJoin_ok _ _ index1 index2 hv1 hv2] at hr
  cases hS : Storage.HashJoin grow mem table1 table2 index1 index2 with
  | error e => rw [hS] at hr; cases hr
  | ok out =>
    rw [hS] at hr
    have hpair : (out.rows, out.err) = (nestedLoopJoin (Storage.readTable mem table1) index1
        index2 (Storage.readTable mem table2), none) := Except.ok.inj hr
    injection hpair with hrows herr
    exact ⟨out, rfl, hrows, herr, hm out hS⟩

/-- With key indices valid for every row and no spare capacity in the rows of
the first table, `SortMergeJoin` returns a permutation of the nested-loop
equi-join, one row for each matching pair, and a nil error; the arrays it found
are unchanged. -/
theorem sortMergeJoin_without_spare (sortRows : Storage.SliceSorter) (sortSlice : SliceSorter)
    (hagree : Storage.SortersAgree sortRows sortSlice) (hs : SortsByKey sortSlice)
    (grow : Nat → Nat → Nat) (mem : Storage.Memory)
    (table1 table2 : List Storage.Row) (index1 index2 : Int)
    (h1 : ∀ row ∈ table1, Storage.WellFormed mem row ∧ Storage.NoSpare mem row)
    (h2 : ∀ row ∈ table2, Storage.WellFormed mem row)
    (hv1 : KeysValid (Storage.readTable mem table1) index1)
    (hv2 : KeysValid (Storage.readTable mem table2) index2) :
    ∃ out, Storage.SortMergeJoin sortRows grow mem table1 table2 index1 index2 = .ok out ∧
      out.joined.rows.Perm (nestedLoopJoin (Storage.readTable mem table1) index1 index2
        (Storage.readTable mem table2)) ∧
      (∀ row, out.joined.rows.count row
        = (List.product (Storage.readTable mem table1) (Storage.readTable mem table2)).countP
            (contributes index1 index2 row)) ∧
      (∀ row ∈ out.joined.rows, IsJoinedRow (Storage.readTable mem table1)
        (Storage.readTable mem table2) index1 index2 row) ∧
      out.joined.err = none ∧ ∃ extra, out.joined.mem = mem ++ extra := by
  obtain ⟨hr, hm⟩ := sortMergeJoin_refines sortRows sortSlice hagree grow mem table1 table2
    index1 index2 h1 h2
  obtain ⟨outV, heV, hnV, hpV, _⟩ := sortMergeJoin_spec sortSlice hs
    (Storage.readTable mem table1) (Storage.readTable mem table2) index1 index2 hv1 hv2
  rw [heV] at hr
  cases hS : Storage.SortMergeJoin sortRows grow mem table1 table2 index1 index2 with
  | error e => rw [hS] at hr; cases hr
  | ok out =>
    rw [hS] at hr
    have hquad : (out.joined.rows, out.joined.err, Storage.readTable mem out.table1,
        Storage.readTable mem out.table2)
          = (outV.outputTable, outV.err, outV.table1, outV.table2) := Except.ok.inj hr
    injection hquad with hrows hrest
    injection hrest with herr _
    refine ⟨out, rfl, ?_, ?_, ?_, ?_, hm out hS⟩
    · rw [hrows]; exact hpV
    · intro row
      rw [hrows, hpV.count_eq row, count_nestedLoopJoin]
    · intro row hrow
      rw [hrows] at hrow
      exact isJoinedRow_of_mem (hpV.subset hrow)
    · rw [herr]; exact hnV

/-- With valid keys and no spare capacity in the rows of the first table, the
merge phase on sorted tables returns a permutation of the nested-loop
equi-join, whichever way rows of equal key are ordered. -/
theorem mergePhase_without_spare (grow : Nat → Nat → Nat) (mem : Storage.Memory)
    (table1 table2 : List Storage.Row) (index1 index2 : Int)
    (h1 : ∀ row ∈ table1, Storage.WellFormed mem row ∧ Storage.NoSpare mem row)
    (h2 : ∀ row ∈ table2, Storage.WellFormed mem row)
    (hv1 : KeysValid (Storage.readTable mem table1) index1)
    (hv2 : KeysValid (Storage.readTable mem table2) index2)
    (hs1 : SortedByKey index1 (Storage.readTable mem table1))
    (hs2 : SortedByKey index2 (Storage.readTable mem table2)) :
    ∃ out, Storage.mergePhase grow mem table1 table2 index1 index2 = .ok out ∧
      out.rows.Perm (nestedLoopJoin (Storage.readTable mem table1) index1 index2
        (Storage.readTable mem table2)) := by
  obtain ⟨hr, _⟩ := mergePhase_refines grow mem table1 table2 index1 index2 h1 h2
  obtain ⟨res, he, hp⟩ := mergeLoop_spec (Storage.readTable mem table1)
    (Storage.readTable mem table2) index1 index2 hv1 hv2 hs1 hs2
    ((Storage.readTable mem table1).length + (Storage.readTable mem table2).length) 0 0 []
    (by omega)
  rw [length_readTable, length_readTable] at he
  rw [he] at hr
  cases hS : Storage.mergePhase grow mem table1 table2 index1 index2 with
  | error e => rw [hS] at hr; cases hr
  | ok out =>
    rw [hS] at hr
    have hpair : (out.rows, out.err) = ([] ++ res, none) := Except.ok.inj hr
    injection hpair with hrows _
    refine ⟨out, rfl, ?_⟩
    rw [hrows]
    simpa using hp

/-! ## The claims -/

/-- C6. Joining against an empty relation yields an empty result and no
failure, for both algorithms and with the empty relation on either side. -/
theorem join_with_empty (sortSlice : SliceSorter) (hs : SortsByKey sortSlice)
    (R : List Relation) (index1 index2 : Int)
    (h1 : KeysValid R index1) (h2 : KeysValid R index2) :
    HashJoin [] R index1 index2 = .ok ([], none) ∧
    HashJoin R [] index1 index2 = .ok ([], none) ∧
    (∃ out, SortMergeJoin sortSlice [] R index1 index2 = .ok out ∧
      out.err = none ∧ out.outputTable = []) ∧
    (∃ out, SortMergeJoin sortSlice R [] index1 index2 = .ok out ∧
      out.err = none ∧ out.outputTable = []) := by
  have ha := hashJoin_ok [] R index1 index2 (keysValid_nil index1) h2
  have hb := hashJoin_ok R [] index1 index2 h1 (keysValid_nil index2)
  rw [nestedLoopJoin_nil_build] at ha
  obtain ⟨o1, he1, hn1, hp1, _⟩ :=
    sortMergeJoin_spec sortSlice hs [] R index1 index2 (keysValid_nil index1) h2
  obtain ⟨o2, he2, hn2, hp2, _⟩ :=
    sortMergeJoin_spec sortSlice hs R [] index1 index2 h1 (keysValid_nil index2)
  rw [nestedLoopJoin_nil_build] at hp1
  exact ⟨ha, hb, ⟨o1, he1, hn1, List.perm_nil.mp hp1⟩, ⟨o2, he2, hn2, List.perm_nil.mp hp2⟩⟩

/-- An unsorted table joined with the empty table, on either side. -/
theorem join_with_empty_witness :
    KeysValid unsortedA 0 ∧ KeysValid unsortedA 1 ∧
    HashJoin [] unsortedA 0 1 = .ok ([], none) ∧
    HashJoin unsortedA [] 0 1 = .ok ([], none) ∧
    (∃ out, SortMergeJoin insertionSortSlice [] unsortedA 0 1 = .ok out ∧
      out.err = none ∧ out.outputTable = []) ∧
    (∃ out, SortMergeJoin insertionSortSlice unsortedA [] 0 1 = .ok out ∧
      out.err = none ∧ out.outputTable = []) :=
  ⟨by decide, by decide,
    join_with_empty insertionSortSlice insertionSortSlice_sortsByKey unsortedA 0 1
      (by decide) (by decide)⟩

/-- C7. With valid key indices, when no row of the first table has a key equal
to the key of a row of the second, both `HashJoin` and `SortMergeJoin` return an
empty result and do not fail. -/
theorem join_without_match (sortSlice : SliceSorter) (hs : SortsByKey sortSlice)
    (table1 table2 : List Relation) (index1 index2 : Int)
    (h1 : KeysValid table1 index1) (h2 : KeysValid table2 index2)
    (hno : ∀ a ∈ table1, ∀ b ∈ table2, keyAt a index1 ≠ keyAt b index2) :
    HashJoin table1 table2 index1 index2 = .ok ([], none) ∧
    ∃ out, SortMergeJoin sortSlice table1 table2 index1 index2 = .ok out ∧
      out.err = none ∧ out.outputTable = [] := by
  have hh := hashJoin_ok table1 table2 index1 index2 h1 h2
  obtain ⟨out, he, hn, hp, _⟩ :=
    sortMergeJoin_spec sortSlice hs table1 table2 index1 index2 h1 h2
  rw [nestedLoopJoin_eq_nil_of_no_match hno] at hh hp
  exact ⟨hh, out, he, hn, List.perm_nil.mp hp⟩

/-- Keys 4, 2, 4 against keys 3, 1. -/
theorem join_without_match_witness :
    KeysValid disjointA 0 ∧ KeysValid disjointB 0 ∧
    (∀ a ∈ disjointA, ∀ b ∈ disjointB, keyAt a 0 ≠ keyAt b 0) ∧
    HashJoin disjointA disjointB 0 0 = .ok ([], none) ∧
    ∃ out, SortMergeJoin insertionSortSlice disjointA disjointB 0 0 = .ok out ∧
      out.err = none ∧ out.outputTable = [] :=
  have hno : ∀ a ∈ disjointA, ∀ b ∈ disjointB, keyAt a 0 ≠ keyAt b 0 := by
    intro a ha b hb
    simp only [disjointA, disjointB, List.mem_cons, List.mem_singleton, List.not_mem_nil,
      or_false] at ha hb
    rcases ha with rfl | rfl | rfl <;> rcases hb with rfl | rfl <;>
      (intro h; injection h with h; exact absurd h (by decide))
  ⟨by decide, by decide, hno,
    join_without_match insertionSortSlice insertionSortSlice_sortsByKey disjointA disjointB 0 0
      (by decide) (by decide) hno⟩

/-- C9. `HashJoin` ends in the index-out-of-range panic exactly when some row
of the build table has no field at `index1` or some row of the probe table has
no field at `index2`; in every other case it returns rows and a nil error. -/
theorem hashJoin_fatal_iff (table1 table2 : List Relation) (index1 index2 : Int) :
    (HashJoin table1 table2 index1 index2 = .error .indexOutOfRange ↔
      (∃ r ∈ table1, ¬ HasField r index1) ∨ (∃ r ∈ table2, ¬ HasField r index2)) ∧
    (HashJoin table1 table2 index1 index2 = .error .indexOutOfRange ∨
      ∃ rows, HashJoin table1 table2 index1 index2 = .ok (rows, none)) := by
  by_cases hv : KeysValid table1 index1 ∧ KeysValid table2 index2
  · have hok := hashJoin_ok table1 table2 index1 index2 hv.1 hv.2
    refine ⟨⟨?_, ?_⟩, Or.inr ⟨_, hok⟩⟩
    · intro he
      rw [hok] at he
      cases he
    · rintro (⟨r, hr, hbad⟩ | ⟨r, hr, hbad⟩)
      · exact absurd (hv.1 r hr) hbad
      · exact absurd (hv.2 r hr) hbad
  · have herr := hashJoin_error table1 table2 index1 index2 hv
    refine ⟨⟨fun _ => ?_, fun _ => herr⟩, Or.inl herr⟩
    by_contra hc
    apply hv
    constructor
    · intro r hr
      by_contra hbad
      exact hc (Or.inl ⟨r, hr, hbad⟩)
    · intro r hr
      by_contra hbad
      exact hc (Or.inr ⟨r, hr, hbad⟩)

/-- C10. When every row of each table has a field at that table's key index
(and the sorting routine keeps its promise), `SortMergeJoin` reads no table and
no row out of range: the call does not end in a panic but returns a result
with a nil error. -/
theorem sortMergeJoin_in_bounds (sortSlice : SliceSorter) (hs : SortsByKey sortSlice)
    (table1 table2 : List Relation) (index1 index2 : Int)
    (h1 : KeysValid table1 index1) (h2 : KeysValid table2 index2) :
    (∀ a ∈ table1, ∀ b ∈ table1, ∃ v, lessByKey index1 a b = .ok v) ∧
    (∀ a ∈ table2, ∀ b ∈ table2, ∃ v, lessByKey index2 a b = .ok v) ∧
    ∃ out, SortMergeJoin sortSlice table1 table2 index1 index2 = .ok out ∧ out.err = none := by
  obtain ⟨out, he, hn, _⟩ := sortMergeJoin_spec sortSlice hs table1 table2 index1 index2 h1 h2
  exact ⟨fun a ha b hb => ⟨_, lessByKey_of_hasField (h1 a ha) (h1 b hb)⟩,
    fun a ha b hb => ⟨_, lessByKey_of_hasField (h2 a ha) (h2 b hb)⟩, out, he, hn⟩

/-- Three rows of key 5 on each side, where every scan runs to the end of its
table: the call returns. -/
theorem sortMergeJoin_in_bounds_witness :
    KeysValid groupA 0 ∧ KeysValid groupB 0 ∧
      ∃ out, SortMergeJoin insertionSortSlice groupA groupB 0 0 = .ok out ∧ out.err = none :=
  ⟨by decide, by decide,
    (sortMergeJoin_in_bounds insertionSortSlice insertionSortSlice_sortsByKey
      groupA groupB 0 0 (by decide) (by decide)).2.2⟩

/-- C11, as stated, fails: a table with the single row `()` has no field at
index 0, yet `SortMergeJoin` of it with the empty table returns an empty result
and a nil error, where `HashJoin` panics. -/
theorem sortMergeJoin_unread_key_counterexample :
    (∃ r ∈ emptyRowTable, ¬ HasField r 0) ∧
    SortMergeJoin insertionSortSlice emptyRowTable [] 0 0
      = .ok ⟨[], none, emptyRowTable, []⟩ ∧
    HashJoin emptyRowTable [] 0 0 = .error .indexOutOfRange :=
  ⟨⟨⟨[]⟩, by decide, by decide⟩, rfl, rfl⟩

/-- C11, amended. When some row of the first table has no field at `index1` or
some row of the second has no field at `index2`, `SortMergeJoin` ends in the
index-out-of-range panic provided a key of such a row is read: both tables are
non-empty, or the table that holds the row has two rows or more. -/
theorem sortMergeJoin_fatal_when_read (sortSlice : SliceSorter) (hs : SortsByKey sortSlice)
    (hc : ComparesEveryRow sortSlice) (table1 table2 : List Relation) (index1 index2 : Int)
    (hbad : ¬ KeysValid table1 index1 ∨ ¬ KeysValid table2 index2)
    (hread : (table1 ≠ [] ∧ table2 ≠ []) ∨ (¬ KeysValid table1 index1 ∧ 2 ≤ table1.length) ∨
      (¬ KeysValid table2 index2 ∧ 2 ≤ table2.length)) :
    SortMergeJoin sortSlice table1 table2 index1 index2 = .error .indexOutOfRange :=
  sortMergeJoin_error_of_read sortSlice hs hc table1 table2 index1 index2 hbad hread

/-- The row without fields against a table of one row. -/
theorem sortMergeJoin_fatal_when_read_witness :
    (¬ KeysValid emptyRowTable 0 ∨ ¬ KeysValid oneRowTable 0) ∧
    ((emptyRowTable ≠ [] ∧ oneRowTable ≠ []) ∨ (¬ KeysValid emptyRowTable 0 ∧ 2 ≤ emptyRowTable.length) ∨
      (¬ KeysValid oneRowTable 0 ∧ 2 ≤ oneRowTable.length)) ∧
    SortMergeJoin insertionSortSlice emptyRowTable oneRowTable 0 0 = .error .indexOutOfRange :=
  ⟨by decide, by decide,
    sortMergeJoin_fatal_when_read insertionSortSlice insertionSortSlice_sortsByKey
      insertionSortSlice_comparesEveryRow emptyRowTable oneRowTable 0 0 (by decide) (by decide)⟩

/-- C12 does not hold of the code: the empty line, which has no three
tab-separated fields, is not discarded; `parseLine` panics on it (slice bounds
out of range), as on every line of fewer than two bytes. -/
theorem parseLine_short_line_panics (hashMap : Store) :
    parseLine [] hashMap = .error .sliceBoundsOutOfRange ∧
    parseLine [46] hashMap = .error .sliceBoundsOutOfRange :=
  ⟨rfl, rfl⟩

/-- C16. With valid key indices the merge phase terminates: an iteration of the
outer loop moves `i`, `j` or both one step forward, so the loop returns within
as many iterations as the cursors are away from the ends of their tables; each
duplicate scan returns within as many iterations as its cursor is away from the
end of its table; and the outer loop makes no further iteration exactly when
`i` has reached `len(table1)` or `j` has reached `len(table2)`. -/
theorem mergeLoop_terminates (table1 table2 : List Relation) (index1 index2 : Int)
    (h1 : KeysValid table1 index1) (h2 : KeysValid table2 index2) :
    (∀ (fuel i j : Nat) (out : List Relation),
      (table1.length - i) + (table2.length - j) ≤ fuel →
      ∃ res, mergeLoop table1 table2 index1 index2 fuel i j out = .ok res) ∧
    (∀ (i j : Nat), i < table1.length → j < table2.length →
      ∃ (i' j' : Nat) (emitted : List Relation),
        ((i' = i + 1 ∧ j' = j) ∨ (i' = i ∧ j' = j + 1) ∨ (i' = i + 1 ∧ j' = j + 1)) ∧
        ∀ (fuel : Nat) (out : List Relation),
          mergeLoop table1 table2 index1 index2 (fuel + 1) i j out
            = mergeLoop table1 table2 index1 index2 fuel i' j' (out ++ emitted)) ∧
    (∀ (fuel i j : Nat) (out : List Relation),
      ¬ (i < table1.length ∧ j < table2.length) →
      mergeLoop table1 table2 index1 index2 fuel i j out = .ok out) ∧
    (∀ (i : Nat), i < table1.length → ∀ (fuel jPrime : Nat) (out : List Relation),
      table2.length - jPrime ≤ fuel →
      ∃ res, scanJ table1 table2 index1 index2 i fuel jPrime out = .ok res) ∧
    (∀ (j : Nat), j < table2.length → ∀ (fuel iPrime : Nat) (out : List Relation),
      table1.length - iPrime ≤ fuel →
      ∃ res, scanI table1 table2 index1 index2 j fuel iPrime out = .ok res) := by
  refine ⟨mergeLoop_returns table1 table2 index1 index2 h1 h2, ?_,
    fun fuel i j out h => mergeLoop_done table1 table2 index1 index2 fuel i j out h, ?_, ?_⟩
  · intro i j hi hj
    obtain ⟨i', j', emitted, hmove, _, hstep⟩ :=
      mergeLoop_step table1 table2 index1 index2 h1 h2 i j hi hj
    exact ⟨i', j', emitted, hmove, hstep⟩
  · intro i hi fuel jPrime out hf
    exact ⟨_, scanJ_eq table1 table2 index1 index2 i hi (h1 _ (List.getElem_mem hi)) h2
      fuel jPrime out hf⟩
  · intro j hj fuel iPrime out hf
    exact ⟨_, scanI_eq table1 table2 index1 index2 j hj (h2 _ (List.getElem_mem hj)) h1
      fuel iPrime out hf⟩

/-- Two unsorted tables of four rows: eight iterations are enough. -/
theorem mergeLoop_terminates_witness :
    KeysValid unsortedA 0 ∧ KeysValid unsortedB 1 ∧
    ∃ res, mergeLoop unsortedA unsortedB 0 1 8 0 0 [] = .ok res :=
  ⟨by decide, by decide,
    (mergeLoop_terminates unsortedA unsortedB 0 1 (by decide) (by decide)).1 8 0 0 []
      (by decide)⟩

/-- C17 does not hold of the code: when the third join returns a non-nil
error, which the call assigns to the blank identifier, `measureTimeSmallDataSet`
returns the elapsed time. -/
theorem measureTime_reports_after_failed_third_join :
    failingThirdJoin (reviewStore.get (asciiBytes "rev:hasReview")) [] 0 1
      = .ok ([], some "join failed") ∧
    measureTimeSmallDataSet failingThirdJoin reviewStore "1.5ms" = .ok "1.5ms" :=
  ⟨rfl, rfl⟩

/-- C18. When the line without its last two bytes splits on the tab into
exactly the three fields subject, predicate and object, `parseLine` returns a
store in which the sequence of that predicate is the former one followed by the
one row `[hash(subject), hash(object)]`, and every other predicate has what it
had. -/
theorem parseLine_appends_row (line : GoString) (hashMap : Store)
    (subject property object : GoString)
    (hsplit : splitTab (line.take (line.length - 2)) = [subject, property, object]) :
    ∃ store, parseLine line hashMap = .ok store ∧
      store.get property = hashMap.get property ++ [⟨[hash subject, hash object]⟩] ∧
      ∀ p, p ≠ property → store.lookup p = hashMap.lookup p := by
  refine ⟨_, parseLine_of_three_fields line hashMap subject property object hsplit, ?_, ?_⟩
  · simp [Store.get, Store.lookup_of_set]
  · intro p hp
    rw [Store.lookup_of_set, if_neg (fun h => hp h.symm)]

/-- The line `a<tab>b<tab>c .` read into a store that has two rows under `b`. -/
theorem parseLine_appends_row_witness :
    splitTab (lineABC.take (lineABC.length - 2)) = [[97], [98], [99]] ∧
    ∃ store, parseLine lineABC smallStore = .ok store ∧
      store.get [98] = smallStore.get [98] ++ [⟨[hash [97], hash [99]]⟩] ∧
      ∀ p, p ≠ [98] → store.lookup p = smallStore.lookup p :=
  ⟨rfl, parseLine_appends_row lineABC smallStore [97] [98] [99] rfl⟩

/-- C19 does not hold of the code: each iteration first appends the four
characters `%d, ` to the text, so for the fields 1, 2 the text written is not
the comma-separated form `1, 2` with a newline. -/
theorem writeToDisc_stray_verbs :
    WriteToDisc [1, 2] = "%d, 1, %d, 2\n" ∧ commaSeparated [1, 2] = "1, 2\n" ∧
    WriteToDisc [1, 2] ≠ commaSeparated [1, 2] :=
  ⟨by decide, by decide, by decide⟩

/-- Two chained joins of rows that `parseLine` made (two fields in an array of
two cells) return a row of six fields in an array of eight cells, and a third
join on that row returns the same fields twice. -/
theorem chained_joins_leave_spare_capacity :
    ∃ out1 out2 out3,
      Storage.HashJoin Storage.growCap parsedMem [⟨0, 0, 2⟩] [⟨1, 0, 2⟩] 0 0 = .ok out1 ∧
      Storage.HashJoin Storage.growCap out1.mem out1.outputTable [⟨2, 0, 2⟩] 0 0 = .ok out2 ∧
      out2.rows = [⟨[1, 2, 1, 5, 1, 6]⟩] ∧
      out2.outputTable.map (fun row => (row.len, Storage.capOf out2.mem row)) = [(6, 8)] ∧
      Storage.HashJoin Storage.growCap out2.mem out2.outputTable [⟨3, 0, 2⟩, ⟨4, 0, 2⟩] 0 0
        = .ok out3 ∧
      out3.rows = [⟨[1, 2, 1, 5, 1, 6, 1, 200]⟩, ⟨[1, 2, 1, 5, 1, 6, 1, 200]⟩] :=
  ⟨_, _, _, rfl, rfl, rfl, rfl, rfl, rfl⟩

/-- C1 does not hold of the code: for the row `(1,2,1,5,1,6)` of capacity 8
against `(1,100)` and `(1,200)`, keys at index 0, the nested-loop join is
`(…,1,100)`, `(…,1,200)`, but both appends of `HashJoin` write into the two
spare cells of the left row, and the two rows it returns both read `(…,1,200)`. -/
theorem hashJoin_overwrites_earlier_row (grow : Nat → Nat → Nat) :
    KeysValid (Storage.readTable spareMem spareLeft) 0 ∧
    KeysValid (Storage.readTable spareMem twoRight) 0 ∧
    nestedLoopJoin (Storage.readTable spareMem spareLeft) 0 0
        (Storage.readTable spareMem twoRight)
      = [⟨[1, 2, 1, 5, 1, 6, 1, 100]⟩, ⟨[1, 2, 1, 5, 1, 6, 1, 200]⟩] ∧
    ∃ out, Storage.HashJoin grow spareMem spareLeft twoRight 0 0 = .ok out ∧
      out.rows = [⟨[1, 2, 1, 5, 1, 6, 1, 200]⟩, ⟨[1, 2, 1, 5, 1, 6, 1, 200]⟩] :=
  ⟨by decide, by decide, rfl, _, rfl, rfl⟩

/-- C2 does not hold of the code: on the same tables `SortMergeJoin` returns
two rows that both read `(…,1,200)`, which is not a permutation of the
equi-join `(…,1,100)`, `(…,1,200)`. -/
theorem sortMergeJoin_overwrites_earlier_row (grow : Nat → Nat → Nat) :
    KeysValid (Storage.readTable spareMem spareLeft) 0 ∧
    KeysValid (Storage.readTable spareMem twoRight) 0 ∧
    ∃ out, Storage.SortMergeJoin Storage.insertionSortSlice grow spareMem spareLeft twoRight 0 0
        = .ok out ∧
      out.joined.rows = [⟨[1, 2, 1, 5, 1, 6, 1, 200]⟩, ⟨[1, 2, 1, 5, 1, 6, 1, 200]⟩] ∧
      ¬ out.joined.rows.Perm (nestedLoopJoin (Storage.readTable spareMem spareLeft) 0 0
        (Storage.readTable spareMem twoRight)) :=
  ⟨by decide, by decide, _, rfl, rfl, by decide⟩

/-- The two rows `(1,1,11)` and `(1,1)` in one array of five cells are what
`HashJoin` returns for the row `(1)` of capacity 5 joined with `(1,11)` and `(1)`. -/
theorem shared_rows_from_hashJoin (grow : Nat → Nat → Nat) :
    ∃ out, Storage.HashJoin grow [[1, 0, 0, 0, 0], [1, 11], [1]] [⟨0, 0, 1⟩]
        [⟨1, 0, 2⟩, ⟨2, 0, 1⟩] 0 0 = .ok out ∧
      out.outputTable = sharedLeft ∧
      Storage.readTable out.mem sharedLeft = Storage.readTable sharedMem sharedLeft ∧
      sharedLeft.map (Storage.capOf out.mem) = sharedLeft.map (Storage.capOf sharedMem) :=
  ⟨_, rfl, rfl, rfl, rfl⟩

/-- C4 does not hold of the code.  On the left rows `(1,1,11)` and `(1,1)` that
view one array of five cells and the right rows `(1,7)` and `(1)`, every key
occurring twice, `HashJoin` and `SortMergeJoin` append in different orders and
leave different cells behind, so that the rows they return are not permutations
of each other.  And on rows with arrays of their own the same happens as soon
as the sort puts two rows of equal key the other way round, which `sort.Slice`
may do: for the row `(1,2,1,5,1,6)` of capacity 8, `HashJoin` on `(1,100)`,
`(1,200)` returns `(…,1,200)` twice, and the merge phase on `(1,200)`,
`(1,100)` returns `(…,1,100)` twice. -/
theorem hashJoin_sortMergeJoin_differ (grow : Nat → Nat → Nat) :
    (KeysValid (Storage.readTable sharedMem sharedLeft) 0 ∧
      KeysValid (Storage.readTable sharedMem sharedRight) 0 ∧
      KeyAtMostTwice 0 (Storage.readTable sharedMem sharedLeft) ∧
      KeyAtMostTwice 0 (Storage.readTable sharedMem sharedRight) ∧
      ∃ outH outS,
        Storage.HashJoin grow sharedMem sharedLeft sharedRight 0 0 = .ok outH ∧
        Storage.SortMergeJoin Storage.insertionSortSlice grow sharedMem sharedLeft
          sharedRight 0 0 = .ok outS ∧
        outH.rows = [⟨[1, 1, 1, 1, 7]⟩, ⟨[1, 1, 1, 1]⟩, ⟨[1, 1, 1, 1]⟩, ⟨[1, 1, 1]⟩] ∧
        outS.joined.rows = [⟨[1, 1, 1, 7, 7]⟩, ⟨[1, 1, 1, 7]⟩, ⟨[1, 1, 1, 7]⟩, ⟨[1, 1, 1]⟩] ∧
        ¬ outH.rows.Perm outS.joined.rows) ∧
    (KeyAtMostTwice 0 (Storage.readTable spareMem spareLeft) ∧
      KeyAtMostTwice 0 (Storage.readTable spareMem twoRight) ∧
      twoRightSwapped.Perm twoRight ∧
      SortedByKey 0 (Storage.readTable spareMem twoRightSwapped) ∧
      ∃ outH outM,
        Storage.HashJoin grow spareMem spareLeft twoRight 0 0 = .ok outH ∧
        Storage.mergePhase grow spareMem spareLeft twoRightSwapped 0 0 = .ok outM ∧
        ¬ outH.rows.Perm outM.rows) :=
  ⟨⟨by decide, by decide, by decide, by decide, _, _, rfl, rfl, rfl, rfl, by decide⟩,
    ⟨by decide, by decide, by decide, by unfold SortedByKey; decide, _, _, rfl, rfl,
      by decide⟩⟩

/-- C5 does not hold of the code: for the row `(1,0)` of capacity 8 against
`(9,1,7)` and `(8,1)`, keys at index 0 and 1, both joins return as first row
`(1,0,8,1,7)`, which is the left row followed by no row of the second table:
the second append has written `8, 1` over the `9, 1` of the first. -/
theorem join_returns_mixed_row (grow : Nat → Nat → Nat) :
    KeysValid (Storage.readTable mixedMem mixedLeft) 0 ∧
    KeysValid (Storage.readTable mixedMem mixedRight) 1 ∧
    (∃ out, Storage.HashJoin grow mixedMem mixedLeft mixedRight 0 1 = .ok out ∧
      out.rows = [⟨[1, 0, 8, 1, 7]⟩, ⟨[1, 0, 8, 1]⟩]) ∧
    (∃ out, Storage.SortMergeJoin Storage.insertionSortSlice grow mixedMem mixedLeft
        mixedRight 0 1 = .ok out ∧
      out.joined.rows = [⟨[1, 0, 8, 1, 7]⟩, ⟨[1, 0, 8, 1]⟩]) ∧
    ¬ IsJoinedRow (Storage.readTable mixedMem mixedLeft)
        (Storage.readTable mixedMem mixedRight) 0 1 ⟨[1, 0, 8, 1, 7]⟩ := by
  refine ⟨by decide, by decide, ⟨_, rfl, rfl⟩, ⟨_, rfl, rfl⟩, ?_⟩
  have hl : Storage.readTable mixedMem mixedLeft = [⟨[1, 0]⟩] := rfl
  have hr : Storage.readTable mixedMem mixedRight = [⟨[9, 1, 7]⟩, ⟨[8, 1]⟩] := rfl
  rw [hl, hr]
  rintro ⟨l, hmeml, r, hmemr, _, hvals, _⟩
  simp only [List.mem_cons, List.mem_singleton, List.not_mem_nil, or_false] at hmeml hmemr
  subst hmeml
  rcases hmemr with rfl | rfl
  · exact absurd hvals (by decide)
  · exact absurd hvals (by decide)

/-- C14 does not hold of the code: the merge phase run on the row
`(1,2,1,5,1,6)` of capacity 8 against `(1,100)`, `(1,200)` returns `(…,1,200)`
twice, and run against the same two rows in the other order, which is sorted as
well, it returns `(…,1,100)` twice. -/
theorem merge_depends_on_tie_order (grow : Nat → Nat → Nat) :
    twoRight.Perm twoRightSwapped ∧
    SortedByKey 0 (Storage.readTable spareMem spareLeft) ∧
    SortedByKey 0 (Storage.readTable spareMem twoRight) ∧
    SortedByKey 0 (Storage.readTable spareMem twoRightSwapped) ∧
    ∃ out1 out2,
      Storage.mergePhase grow spareMem spareLeft twoRight 0 0 = .ok out1 ∧
      Storage.mergePhase grow spareMem spareLeft twoRightSwapped 0 0 = .ok out2 ∧
      out1.rows = [⟨[1, 2, 1, 5, 1, 6, 1, 200]⟩, ⟨[1, 2, 1, 5, 1, 6, 1, 200]⟩] ∧
      out2.rows = [⟨[1, 2, 1, 5, 1, 6, 1, 100]⟩, ⟨[1, 2, 1, 5, 1, 6, 1, 100]⟩] ∧
      ¬ out1.rows.Perm out2.rows :=
  ⟨by decide, by unfold SortedByKey; decide, by unfold SortedByKey; decide,
    by unfold SortedByKey; decide, _, _, rfl, rfl, rfl, rfl, by decide⟩

/-! ## The same joins on rows as `parseLine` makes them -/

/-- Rows of two fields in arrays of two cells: `HashJoin` returns the
nested-loop join. -/
theorem hashJoin_without_spare_example :
    ∃ out, Storage.HashJoin Storage.growCap parsedMem [⟨0, 0, 2⟩] [⟨3, 0, 2⟩, ⟨4, 0, 2⟩] 0 0
        = .ok out ∧
      out.rows = nestedLoopJoin (Storage.readTable parsedMem [⟨0, 0, 2⟩]) 0 0
        (Storage.readTable parsedMem [⟨3, 0, 2⟩, ⟨4, 0, 2⟩]) ∧
      out.err = none ∧ ∃ extra, out.mem = parsedMem ++ extra :=
  hashJoin_without_spare Storage.growCap parsedMem [⟨0, 0, 2⟩] [⟨3, 0, 2⟩, ⟨4, 0, 2⟩] 0 0
    (by decide) (by decide) (by decide) (by decide)

/-- The rows that call returns, written out. -/
theorem hashJoin_without_spare_rows :
    ∃ out, Storage.HashJoin Storage.growCap parsedMem [⟨0, 0, 2⟩] [⟨3, 0, 2⟩, ⟨4, 0, 2⟩] 0 0
        = .ok out ∧
      out.rows = [⟨[1, 2, 1, 100]⟩, ⟨[1, 2, 1, 200]⟩] :=
  ⟨_, rfl, rfl⟩

/-- Rows of two fields in arrays of two cells: `SortMergeJoin` returns a
permutation of the nested-loop join. -/
theorem sortMergeJoin_without_spare_example :
    ∃ out, Storage.SortMergeJoin Storage.insertionSortSlice Storage.growCap parsedMem
        [⟨0, 0, 2⟩] [⟨4, 0, 2⟩, ⟨3, 0, 2⟩] 0 0 = .ok out ∧
      out.joined.rows.Perm (nestedLoopJoin (Storage.readTable parsedMem [⟨0, 0, 2⟩]) 0 0
        (Storage.readTable parsedMem [⟨4, 0, 2⟩, ⟨3, 0, 2⟩])) :=
  have h := sortMergeJoin_without_spare Storage.insertionSortSlice insertionSortSlice
    insertionSort_sortersAgree insertionSortSlice_sortsByKey Storage.growCap parsedMem
    [⟨0, 0, 2⟩] [⟨4, 0, 2⟩, ⟨3, 0, 2⟩] 0 0 (by decide) (by decide) (by decide) (by decide)
  h.imp (fun _ hout => ⟨hout.1, hout.2.1⟩)

end JoinAlgorithms
